import Mathlib

/-!
Verification of the Braille auto-correct engine (`braille_autocorrect.py`).

Words are modelled as `List Char`, braille codes as `List Bool`
(`'0'` ↦ `false`, `'1'` ↦ `true`), Python `int` distances as `Nat`,
confidence scores as `ℚ` (Python floats are idealized as exact rationals;
`round(x, 3)` is modelled as round-half-to-even at 3 decimals).
-/

namespace BrailleAutoCorrect

abbrev Word := List Char
abbrev Code := List Bool

/-- Substitution cost used by the DP: 0 when equal, 1 otherwise. -/
def cost (x y : Bool) : Nat := if x = y then 0 else 1

/-- Reference Levenshtein distance: the classic recurrence characterizing the
minimum number of single-character insertions, deletions and substitutions
transforming one code string into the other. -/
def levRef : List Bool → List Bool → Nat
  | [], b => b.length
  | a, [] => a.length
  | x :: a, y :: b =>
      min (min (levRef a (y :: b) + 1) (levRef (x :: a) b + 1)) (levRef a b + cost x y)
termination_by a b => a.length + b.length

theorem levRef_nil_left (b : List Bool) : levRef [] b = b.length := by
  cases b <;> rw [levRef]

theorem levRef_nil_right (a : List Bool) : levRef a [] = a.length := by
  cases a with
  | nil => rw [levRef]
  | cons x xs => rw [levRef]; simp

theorem levRef_cons_cons (x y : Bool) (a b : List Bool) :
    levRef (x :: a) (y :: b) =
      min (min (levRef a (y :: b) + 1) (levRef (x :: a) b + 1)) (levRef a b + cost x y) := by
  rw [levRef]

theorem cost_comm (x y : Bool) : cost x y = cost y x := by
  unfold cost
  by_cases h : x = y
  · simp [h]
  · have h' : ¬ y = x := fun hyx => h hyx.symm
    simp [h, h']

theorem cost_le_one (x y : Bool) : cost x y ≤ 1 := by
  unfold cost; split <;> omega

theorem levRef_refl (a : List Bool) : levRef a a = 0 := by
  induction a with
  | nil => rw [levRef]; rfl
  | cons x a ih =>
      rw [levRef_cons_cons]
      simp [cost, ih]

theorem levRef_le_sum (a b : List Bool) : levRef a b ≤ a.length + b.length := by
  induction a generalizing b with
  | nil => simp [levRef_nil_left]
  | cons x a iha =>
      induction b with
      | nil => simp [levRef_nil_right]
      | cons y b ihb =>
          rw [levRef_cons_cons]
          have h1 := iha (y :: b)
          have h2 := cost_le_one x y
          simp only [List.length_cons] at *
          omega

theorem levRef_eq_zero {a b : List Bool} (h : levRef a b = 0) : a = b := by
  induction a generalizing b with
  | nil =>
      rw [levRef_nil_left] at h
      exact (List.length_eq_zero.mp h).symm
  | cons x a iha =>
      cases b with
      | nil => rw [levRef_nil_right] at h; simp at h
      | cons y b =>
          rw [levRef_cons_cons] at h
          have h3 : levRef a b + cost x y = 0 := by omega
          have hc : cost x y = 0 := by omega
          have hxy : x = y := by
            by_contra hne
            simp [cost, hne] at hc
          have hab : a = b := iha (by omega)
          rw [hxy, hab]

theorem levRef_comm (a b : List Bool) : levRef a b = levRef b a := by
  induction a generalizing b with
  | nil => rw [levRef_nil_left, levRef_nil_right]
  | cons x a iha =>
      induction b with
      | nil => rw [levRef_nil_left, levRef_nil_right]
      | cons y b ihb =>
          rw [levRef_cons_cons, levRef_cons_cons]
          rw [iha (y :: b), iha b, ← ihb, cost_comm]
          omega

/-- The "snoc" recurrence: the classic DP cell update, phrased on the last
characters of the two strings. This is what justifies the row-by-row
prefix computation of the Python implementation. -/
theorem levRef_snoc (x y : Bool) (a b : List Bool) :
    levRef (a ++ [x]) (b ++ [y]) =
      min (min (levRef a (b ++ [y]) + 1) (levRef (a ++ [x]) b + 1)) (levRef a b + cost x y) := by
  induction a generalizing b with
  | nil =>
      induction b with
      | nil =>
          simp only [List.nil_append]
          rw [levRef_cons_cons x y [] []]
      | cons y' b ihb =>
          simp only [List.nil_append] at *
          simp only [List.cons_append]
          rw [levRef_cons_cons x y' [] (b ++ [y]), ihb, levRef_cons_cons x y' [] b]
          simp only [levRef_nil_left, List.length_append, List.length_cons, List.length_nil]
          omega
  | cons x' a iha =>
      induction b with
      | nil =>
          simp only [List.cons_append, List.nil_append]
          have h1 := iha []
          simp only [List.nil_append] at h1
          rw [levRef_cons_cons x' y (a ++ [x]) [], h1, levRef_cons_cons x' y a []]
          simp only [levRef_nil_right, List.length_append, List.length_cons, List.length_nil]
          omega
      | cons y' b ihb =>
          simp only [List.cons_append] at *
          have h1 := iha (y' :: b)
          simp only [List.cons_append] at h1
          rw [levRef_cons_cons x' y' (a ++ [x]) (b ++ [y]), h1, ihb, iha b,
            levRef_cons_cons x' y' a (b ++ [y]), levRef_cons_cons x' y' (a ++ [x]) b,
            levRef_cons_cons x' y' a b]
          generalize levRef a (y' :: (b ++ [y])) = t1
          generalize levRef (a ++ [x]) (y' :: b) = t2
          generalize levRef a (y' :: b) = t3
          generalize levRef (x' :: a) (b ++ [y]) = t4
          generalize levRef (x' :: (a ++ [x])) b = t5
          generalize levRef (x' :: a) b = t6
          generalize levRef a (b ++ [y]) = t7
          generalize levRef (a ++ [x]) b = t8
          generalize levRef a b = t9
          generalize cost x y = c1
          generalize cost x' y' = c2
          simp only [← min_add_add_right]
          simp only [min_comm, min_left_comm, min_assoc, Nat.add_comm,
            Nat.add_left_comm, Nat.add_assoc]

/-!
## `levenshtein_optimized`

A faithful embedding of the Python function

```
def levenshtein_optimized(self, s1, s2, max_distance=None):
    if abs(len(s1) - len(s2)) > (max_distance or float('inf')):
        return max_distance + 1 if max_distance else abs(len(s1) - len(s2))
    n, m = len(s1), len(s2)
    if n > m:
        s1, s2, n, m = s2, s1, m, n
    current_row = list(range(n + 1))
    for i in range(1, m + 1):
        previous_row, current_row = current_row, [i] + [0] * n
        for j in range(1, n + 1):
            add, delete, change = previous_row[j] + 1, current_row[j - 1] + 1, previous_row[j - 1]
            if s1[j - 1] != s2[i - 1]:
                change += 1
            current_row[j] = min(add, delete, change)
        if max_distance and min(current_row) > max_distance:
            return max_distance + 1
    return current_row[n]
```

Note the Python truthiness quirks: when `max_distance == 0` both the
`max_distance or float('inf')` fast path and the `if max_distance and ...`
early-termination guard are skipped, so a zero budget behaves exactly like
no budget. The model reflects this with explicit `d ≠ 0` conjuncts.
-/

/-- One inner `for j` loop: fills the tail of the new row. `prev` is the
suffix of the previous row starting at index `j - 1`, `left` is the value
just written at index `j - 1` of the current row. -/
def buildRow (y : Bool) : List Bool → List Nat → Nat → List Nat
  | x :: xs, p0 :: p1 :: ps, left =>
      min (min (p1 + 1) (left + 1)) (p0 + cost x y) ::
        buildRow y xs (p1 :: ps) (min (min (p1 + 1) (left + 1)) (p0 + cost x y))
  | _, _, _ => []

/-- Python `min(row)` on a nonempty list (0 as an unreachable default). -/
def minList : List Nat → Nat
  | [] => 0
  | x :: xs => xs.foldl min x

/-- The outer `for i` loop over the longer string `s2` (here the remaining
suffix `ys`), carrying the row index `i` and the previous row. -/
def levLoop (s1 : List Bool) (budget : Option Nat) : List Bool → Nat → List Nat → Nat
  | [], _, row => row.getLastD 0
  | y :: ys, i, row =>
      match budget with
      | some d =>
          if d ≠ 0 ∧ d < minList (i :: buildRow y s1 row i) then d + 1
          else levLoop s1 budget ys (i + 1) (i :: buildRow y s1 row i)
      | none => levLoop s1 budget ys (i + 1) (i :: buildRow y s1 row i)

/-- The matrix part of `levenshtein_optimized`: swap so the row ranges over
the shorter string, then run the row loop from `current_row = range(n+1)`. -/
def levCore (s1 s2 : List Bool) (budget : Option Nat) : Nat :=
  let p := if s2.length < s1.length then (s2, s1) else (s1, s2)
  levLoop p.1 budget p.2 1 (List.range (p.1.length + 1))

/-- `|len(s1) - len(s2)|` on naturals. -/
def natAbsDiff (n m : Nat) : Nat := max n m - min n m

/-- `levenshtein_optimized(s1, s2, max_distance)`; `none` models the default
`max_distance=None`. -/
def levenshtein_optimized : List Bool → List Bool → Option Nat → Nat
  | s1, s2, some d =>
      if d ≠ 0 ∧ d < natAbsDiff s1.length s2.length then d + 1
      else levCore s1 s2 (some d)
  | s1, s2, none => levCore s1 s2 none

/-- The intended contents of the DP row once the prefix `p` of the short
string has been consumed and `t` is the processed prefix of the long one:
entry `j` is the distance between `p ++ rest.take j` and `t`. -/
def rowFrom (p rest t : List Bool) : List Nat :=
  (List.range (rest.length + 1)).map (fun j => levRef (p ++ rest.take j) t)

theorem rowFrom_nil (p t : List Bool) : rowFrom p [] t = [levRef p t] := by
  simp [rowFrom, List.range_succ]

theorem rowFrom_cons (p t : List Bool) (x : Bool) (rest : List Bool) :
    rowFrom p (x :: rest) t = levRef p t :: rowFrom (p ++ [x]) rest t := by
  unfold rowFrom
  rw [List.length_cons, List.range_succ_eq_map]
  simp only [List.map_cons, List.map_map, List.take_zero, List.append_nil]
  congr 1
  apply List.map_congr_left
  intro j _
  simp [List.take_succ_cons, List.append_assoc]


theorem rowFrom_head (q rest t : List Bool) :
    ∃ ps, rowFrom q rest t = levRef q t :: ps := by
  cases rest with
  | nil => exact ⟨[], by rw [rowFrom_nil]⟩
  | cons z zs => exact ⟨_, by rw [rowFrom_cons]⟩

/-- Correctness of the inner loop: fed the previous row for processed prefix
`t` and the fresh cell `levRef p (t ++ [y])` on its left, `buildRow` produces
the rest of the row for `t ++ [y]`. -/
theorem buildRow_spec (y : Bool) (rest : List Bool) :
    ∀ p t : List Bool,
      levRef p (t ++ [y]) :: buildRow y rest (rowFrom p rest t) (levRef p (t ++ [y]))
        = rowFrom p rest (t ++ [y]) := by
  induction rest with
  | nil =>
      intro p t
      rw [rowFrom_nil, rowFrom_nil]
      rfl
  | cons x rest ih =>
      intro p t
      rw [rowFrom_cons p t x rest, rowFrom_cons p (t ++ [y]) x rest]
      obtain ⟨ps, hps⟩ := rowFrom_head (p ++ [x]) rest t
      rw [hps]
      have hcell : min (min (levRef (p ++ [x]) t + 1) (levRef p (t ++ [y]) + 1))
          (levRef p t + cost x y) = levRef (p ++ [x]) (t ++ [y]) := by
        rw [levRef_snoc]
        omega
      simp only [buildRow, hcell, ← hps]
      rw [ih (p ++ [x]) t]

theorem rowFrom_getLastD (t : List Bool) (rest : List Bool) :
    ∀ (p : List Bool) (d : Nat), (rowFrom p rest t).getLastD d = levRef (p ++ rest) t := by
  induction rest with
  | nil => intro p d; rw [rowFrom_nil]; simp
  | cons x rest ih =>
      intro p d
      rw [rowFrom_cons]
      obtain ⟨ps, hps⟩ := rowFrom_head (p ++ [x]) rest t
      rw [List.getLastD_cons, ih (p ++ [x]) (levRef p t)]
      simp

theorem foldl_min_le_init (l : List Nat) : ∀ acc, l.foldl min acc ≤ acc := by
  induction l with
  | nil => intro acc; exact Nat.le_refl acc
  | cons x l ih =>
      intro acc
      calc (x :: l).foldl min acc = l.foldl min (min acc x) := rfl
        _ ≤ min acc x := ih (min acc x)
        _ ≤ acc := Nat.min_le_left acc x

theorem foldl_min_le_mem {x : Nat} {l : List Nat} (hx : x ∈ l) :
    ∀ acc, l.foldl min acc ≤ x := by
  induction l with
  | nil => cases hx
  | cons y l ih =>
      intro acc
      rcases List.mem_cons.mp hx with h | h
      · subst h
        calc (x :: l).foldl min acc = l.foldl min (min acc x) := rfl
          _ ≤ min acc x := foldl_min_le_init l (min acc x)
          _ ≤ x := Nat.min_le_right acc x
      · exact ih h (min acc y)

theorem minList_le_of_mem {x : Nat} {l : List Nat} (hx : x ∈ l) : minList l ≤ x := by
  cases l with
  | nil => cases hx
  | cons y l =>
      rcases List.mem_cons.mp hx with h | h
      · subst h; exact foldl_min_le_init l x
      · exact foldl_min_le_mem h y

theorem rowFrom_mem (p rest t : List Bool) {j : Nat} (hj : j ≤ rest.length) :
    levRef (p ++ rest.take j) t ∈ rowFrom p rest t := by
  unfold rowFrom
  exact List.mem_map.mpr ⟨j, List.mem_range.mpr (by omega), rfl⟩

/-- Unbudgeted loop invariant: starting from the row for processed prefix `t`,
the loop computes the distance between the short string and `t ++ ys`. -/
theorem levLoop_none_spec (s1 : List Bool) :
    ∀ (ys t : List Bool),
      levLoop s1 none ys (t.length + 1) (rowFrom [] s1 t) = levRef s1 (t ++ ys) := by
  intro ys
  induction ys with
  | nil =>
      intro t
      show (rowFrom [] s1 t).getLastD 0 = levRef s1 (t ++ [])
      rw [rowFrom_getLastD t s1 [] 0]
      simp [levRef_comm]
  | cons y ys ih =>
      intro t
      have hrow : (t.length + 1) :: buildRow y s1 (rowFrom [] s1 t) (t.length + 1)
          = rowFrom [] s1 (t ++ [y]) := by
        have h := buildRow_spec y s1 [] t
        have hv : levRef [] (t ++ [y]) = t.length + 1 := by
          rw [levRef_nil_left]; simp
        rw [hv] at h
        exact h
      show levLoop s1 none ys (t.length + 1 + 1)
          ((t.length + 1) :: buildRow y s1 (rowFrom [] s1 t) (t.length + 1))
        = levRef s1 (t ++ y :: ys)
      rw [hrow]
      have h2 := ih (t ++ [y])
      simp only [List.length_append, List.length_cons, List.length_nil] at h2
      rw [show t.length + 1 + 1 = t.length + (0 + 1) + 1 from by omega] at h2
      rw [h2]
      simp

/-- With a budget, each loop step either aborts with the sentinel `d + 1` or
computes the same row as the unbudgeted loop. -/
theorem levLoop_some_cases (s1 : List Bool) (d : Nat) :
    ∀ (ys : List Bool) (i : Nat) (row : List Nat),
      levLoop s1 (some d) ys i row = d + 1 ∨
        levLoop s1 (some d) ys i row = levLoop s1 none ys i row := by
  intro ys
  induction ys with
  | nil => intro i row; right; rfl
  | cons y ys ih =>
      intro i row
      have hstep : levLoop s1 (some d) (y :: ys) i row =
          (if d ≠ 0 ∧ d < minList (i :: buildRow y s1 row i) then d + 1
           else levLoop s1 (some d) ys (i + 1) (i :: buildRow y s1 row i)) := rfl
      have hstepn : levLoop s1 none (y :: ys) i row =
          levLoop s1 none ys (i + 1) (i :: buildRow y s1 row i) := rfl
      rw [hstep, hstepn]
      by_cases h : d ≠ 0 ∧ d < minList (i :: buildRow y s1 row i)
      · left; rw [if_pos h]
      · rw [if_neg h]
        exact ih (i + 1) (i :: buildRow y s1 row i)

theorem range_eq_rowFrom (s1 : List Bool) :
    List.range (s1.length + 1) = rowFrom [] s1 [] := by
  unfold rowFrom
  conv_lhs => rw [← List.map_id (List.range (s1.length + 1))]
  apply List.map_congr_left
  intro j hj
  have hj' : j ≤ s1.length := by
    have := List.mem_range.mp hj
    omega
  rw [levRef_nil_right]
  simp [List.length_take, Nat.min_eq_left hj']

theorem levCore_none (s1 s2 : List Bool) : levCore s1 s2 none = levRef s1 s2 := by
  unfold levCore
  by_cases h : s2.length < s1.length
  · rw [if_pos h]
    show levLoop s2 none s1 1 (List.range (s2.length + 1)) = levRef s1 s2
    rw [range_eq_rowFrom]
    have h1 := levLoop_none_spec s2 s1 []
    simp only [List.length_nil, List.nil_append] at h1
    rw [h1, levRef_comm]
  · rw [if_neg h]
    show levLoop s1 none s2 1 (List.range (s1.length + 1)) = levRef s1 s2
    rw [range_eq_rowFrom]
    have h1 := levLoop_none_spec s1 s2 []
    simp only [List.length_nil, List.nil_append] at h1
    rw [h1]

/-- With no budget, `levenshtein_optimized` computes the exact reference
Levenshtein distance. -/
theorem levenshtein_optimized_none (s1 s2 : List Bool) :
    levenshtein_optimized s1 s2 none = levRef s1 s2 := levCore_none s1 s2

theorem levCore_some_cases (s1 s2 : List Bool) (d : Nat) :
    levCore s1 s2 (some d) = d + 1 ∨ levCore s1 s2 (some d) = levRef s1 s2 := by
  have h := levCore_none s1 s2
  unfold levCore at *
  rcases levLoop_some_cases (if s2.length < s1.length then (s2, s1) else (s1, s2)).1 d
      (if s2.length < s1.length then (s2, s1) else (s1, s2)).2 1
      (List.range ((if s2.length < s1.length then (s2, s1) else (s1, s2)).1.length + 1))
    with h1 | h1
  · left; exact h1
  · right; rw [h1]; exact h

/-- A budgeted result that does not exceed the budget is the exact distance. -/
theorem levenshtein_optimized_le_budget {s1 s2 : List Bool} {d : Nat}
    (h : levenshtein_optimized s1 s2 (some d) ≤ d) :
    levenshtein_optimized s1 s2 (some d) = levRef s1 s2 := by
  rw [levenshtein_optimized] at *
  by_cases hf : d ≠ 0 ∧ d < natAbsDiff s1.length s2.length
  · rw [if_pos hf] at h; omega
  · rw [if_neg hf] at *
    rcases levCore_some_cases s1 s2 d with h1 | h1
    · rw [h1] at h; omega
    · exact h1

/-- Whatever shortcut fires, a budgeted call never under-reports: when the
true distance exceeds the budget, so does the returned value. -/
theorem levenshtein_optimized_gt {s1 s2 : List Bool} {d : Nat}
    (h : d < levRef s1 s2) : d < levenshtein_optimized s1 s2 (some d) := by
  rw [levenshtein_optimized]
  by_cases hf : d ≠ 0 ∧ d < natAbsDiff s1.length s2.length
  · rw [if_pos hf]; omega
  · rw [if_neg hf]
    rcases levCore_some_cases s1 s2 d with h1 | h1 <;> rw [h1] <;> omega

theorem take_prefix_append (t : List Bool) (y : Bool) (ys : List Bool) :
    (t ++ y :: ys).take (t.length + 1) = t ++ [y] := by
  rw [List.take_append_eq_append_take]
  simp

/-- On equal strings the early-termination guard never fires: every row
contains a zero cell, so the loop runs to completion. -/
theorem levLoop_refl_eq (a : List Bool) (d : Nat) :
    ∀ (ys t : List Bool), t ++ ys = a →
      levLoop a (some d) ys (t.length + 1) (rowFrom [] a t)
        = levLoop a none ys (t.length + 1) (rowFrom [] a t) := by
  intro ys
  induction ys with
  | nil => intro t _; rfl
  | cons y ys ih =>
      intro t ha
      have hrow : (t.length + 1) :: buildRow y a (rowFrom [] a t) (t.length + 1)
          = rowFrom [] a (t ++ [y]) := by
        have h := buildRow_spec y a [] t
        have hv : levRef [] (t ++ [y]) = t.length + 1 := by
          rw [levRef_nil_left]; simp
        rw [hv] at h
        exact h
      have hlen : t.length + 1 ≤ a.length := by
        rw [← ha, List.length_append]
        simp only [List.length_cons]
        omega
      have htake : a.take (t.length + 1) = t ++ [y] := by
        rw [← ha]
        exact take_prefix_append t y ys
      have hzero : (0 : Nat) ∈ rowFrom [] a (t ++ [y]) := by
        have hmem := @rowFrom_mem [] a (t ++ [y]) (t.length + 1) hlen
        rw [htake] at hmem
        simpa [levRef_refl] using hmem
      have hexit : ¬ (d ≠ 0 ∧ d < minList ((t.length + 1) ::
          buildRow y a (rowFrom [] a t) (t.length + 1))) := by
        rw [hrow]
        intro hcon
        have := minList_le_of_mem hzero
        omega
      have hstep : levLoop a (some d) (y :: ys) (t.length + 1) (rowFrom [] a t) =
          levLoop a (some d) ys (t.length + 1 + 1)
            ((t.length + 1) :: buildRow y a (rowFrom [] a t) (t.length + 1)) := by
        show (if d ≠ 0 ∧ d < minList ((t.length + 1) ::
            buildRow y a (rowFrom [] a t) (t.length + 1)) then d + 1 else _) = _
        rw [if_neg hexit]
      have hstepn : levLoop a none (y :: ys) (t.length + 1) (rowFrom [] a t) =
          levLoop a none ys (t.length + 1 + 1)
            ((t.length + 1) :: buildRow y a (rowFrom [] a t) (t.length + 1)) := rfl
      rw [hstep, hstepn, hrow]
      have h2 := ih (t ++ [y]) (by rw [← ha]; simp)
      simp only [List.length_append, List.length_cons, List.length_nil,
        Nat.zero_add] at h2
      exact h2

/-- On two equal strings a budgeted call returns 0 for every budget. -/
theorem levenshtein_optimized_self (a : List Bool) (d : Nat) :
    levenshtein_optimized a a (some d) = 0 := by
  rw [levenshtein_optimized]
  have hdiff : natAbsDiff a.length a.length = 0 := by
    unfold natAbsDiff; omega
  rw [hdiff, if_neg (by omega)]
  unfold levCore
  rw [if_neg (by omega)]
  show levLoop a (some d) a 1 (List.range (a.length + 1)) = 0
  rw [range_eq_rowFrom]
  have h1 := levLoop_refl_eq a d a [] rfl
  simp only [List.length_nil] at h1
  rw [h1]
  have h2 := levLoop_none_spec a a []
  simp only [List.length_nil, List.nil_append] at h2
  rw [h2, levRef_refl]

/-!
## Stable sorting

Python's `list.sort(key=...)` is modelled by a stable insertion sort
parameterized by a total preorder `le` (the "key ≤ key" comparison).
-/

section Sorting

variable {α : Type} (le : α → α → Prop) [DecidableRel le]

/-- Insert `x` before the first element `y` with `le x y` false... more
precisely: `x` is placed before the first `y` such that `le x y` holds,
which keeps equal-key elements in input order when used by `sortBy`. -/
def insortBy (x : α) : List α → List α
  | [] => [x]
  | y :: ys => if le x y then x :: y :: ys else y :: insortBy x ys

/-- Stable insertion sort: `sortBy le l` sorts `l` by the total preorder
`le`, keeping the relative order of `le`-equivalent elements. -/
def sortBy : List α → List α
  | [] => []
  | x :: xs => insortBy le x (sortBy xs)

theorem mem_insortBy (x a : α) : ∀ l : List α, a ∈ insortBy le x l ↔ a = x ∨ a ∈ l := by
  intro l
  induction l with
  | nil => simp [insortBy]
  | cons y ys ih =>
      by_cases h : le x y
      · simp [insortBy, if_pos h]
      · simp only [insortBy, if_neg h, List.mem_cons, ih]
        tauto

theorem mem_sortBy (a : α) : ∀ l : List α, a ∈ sortBy le l ↔ a ∈ l := by
  intro l
  induction l with
  | nil => simp [sortBy]
  | cons x xs ih =>
      simp only [sortBy, mem_insortBy, List.mem_cons, ih]

theorem length_insortBy (x : α) : ∀ l : List α, (insortBy le x l).length = l.length + 1 := by
  intro l
  induction l with
  | nil => rfl
  | cons y ys ih =>
      by_cases h : le x y
      · simp [insortBy, if_pos h]
      · simp [insortBy, if_neg h, ih]

theorem length_sortBy : ∀ l : List α, (sortBy le l).length = l.length := by
  intro l
  induction l with
  | nil => rfl
  | cons x xs ih => simp [sortBy, length_insortBy, ih]

theorem pairwise_insortBy (htot : ∀ a b, ¬ le a b → le b a)
    (htrans : ∀ a b c, le a b → le b c → le a c) (x : α) :
    ∀ l : List α, l.Pairwise le → (insortBy le x l).Pairwise le := by
  intro l
  induction l with
  | nil => intro _; simp [insortBy]
  | cons y ys ih =>
      intro hp
      rcases List.pairwise_cons.mp hp with ⟨hy, hys⟩
      by_cases h : le x y
      · rw [insortBy, if_pos h]
        refine List.pairwise_cons.mpr ⟨?_, hp⟩
        intro b hb
        rcases List.mem_cons.mp hb with rfl | hb
        · exact h
        · exact htrans x y b h (hy b hb)
      · rw [insortBy, if_neg h]
        refine List.pairwise_cons.mpr ⟨?_, ih hys⟩
        intro b hb
        rcases (mem_insortBy le x b ys).mp hb with hbx | hb
        · rw [hbx]; exact htot x y h
        · exact hy b hb

theorem pairwise_sortBy (htot : ∀ a b, ¬ le a b → le b a)
    (htrans : ∀ a b c, le a b → le b c → le a c) :
    ∀ l : List α, (sortBy le l).Pairwise le := by
  intro l
  induction l with
  | nil => exact List.Pairwise.nil
  | cons x xs ih => exact pairwise_insortBy le htot htrans x (sortBy le xs) ih

end Sorting

/-!
## Rounding

Python's `round(x, 3)` (round-half-to-even at 3 decimal places), idealized
over exact rationals.
-/

/-- Round-half-to-even to the nearest integer. -/
def bankersRound (q : ℚ) : ℤ :=
  if q - ⌊q⌋ < 1/2 then ⌊q⌋
  else if 1/2 < q - ⌊q⌋ then ⌊q⌋ + 1
  else if ⌊q⌋ % 2 = 0 then ⌊q⌋ else ⌊q⌋ + 1

/-- Python `round(q, 3)`. -/
def round3 (q : ℚ) : ℚ := (bankersRound (q * 1000) : ℚ) / 1000

theorem floor_le_bankersRound (q : ℚ) : ⌊q⌋ ≤ bankersRound q := by
  unfold bankersRound
  split
  · exact le_refl _
  · split
    · omega
    · split <;> omega

theorem bankersRound_le_ceil (q : ℚ) : bankersRound q ≤ ⌈q⌉ := by
  unfold bankersRound
  have hfc : ⌈q⌉ ≤ ⌊q⌋ + 1 := Int.ceil_le_floor_add_one q
  have hlow : ⌊q⌋ ≤ ⌈q⌉ := Int.floor_le_ceil q
  split
  · exact hlow
  · have hne : ¬ q - ⌊q⌋ < 1/2 := by assumption
    have hfrac : (0 : ℚ) < q - ⌊q⌋ := by
      have : (0:ℚ) < 1/2 := by norm_num
      linarith [not_lt.mp hne]
    have hlt : (⌊q⌋ : ℚ) < q := by linarith
    have hceil : ⌊q⌋ + 1 ≤ ⌈q⌉ := by
      have h1 : (⌊q⌋ : ℚ) < ⌈q⌉ := lt_of_lt_of_le hlt (Int.le_ceil q)
      exact_mod_cast Int.lt_iff_add_one_le.mp (by exact_mod_cast h1)
    split
    · omega
    · split <;> omega

theorem round3_nonneg {q : ℚ} (h : 0 ≤ q) : 0 ≤ round3 q := by
  unfold round3
  have h1 : (0:ℤ) ≤ ⌊q * 1000⌋ := Int.floor_nonneg.mpr (by positivity)
  have h2 := floor_le_bankersRound (q * 1000)
  have h3 : (0:ℤ) ≤ bankersRound (q * 1000) := le_trans h1 h2
  positivity

theorem round3_le_of_le {q c : ℚ} (hq : q ≤ c) (hc : ∃ n : ℤ, c * 1000 = n) :
    round3 q ≤ c := by
  obtain ⟨n, hn⟩ := hc
  unfold round3
  have h1 : bankersRound (q * 1000) ≤ ⌈q * 1000⌉ := bankersRound_le_ceil _
  have h2 : ⌈q * 1000⌉ ≤ n := by
    apply Int.ceil_le.mpr
    rw [← hn]
    nlinarith
  have h3 : (bankersRound (q * 1000) : ℚ) ≤ n := by exact_mod_cast le_trans h1 h2
  calc (bankersRound (q * 1000) : ℚ) / 1000 ≤ (n : ℚ) / 1000 :=
        (div_le_div_iff_of_pos_right (by norm_num)).mpr h3
    _ = c := by rw [← hn]; ring

/-!
## Encoder, dictionaries and engine state

Python dicts are modelled as association lists with unique keys preserved by
construction; `defaultdict(list)` is modelled with an explicit state-passing
item access that appends a fresh `(key, [])` entry on a miss.
-/

/-- ASCII `str.lower()` on a single character. -/
def lowerChar (c : Char) : Char :=
  if 'A' ≤ c ∧ c ≤ 'Z' then Char.ofNat (c.toNat + 32) else c

/-- The static `braille_map` table (`'1'` ↦ `true`, `'0'` ↦ `false`). -/
def braille_map : Char → Option Code
  | 'a' => some [true, false, false, false, false, false]
  | 'b' => some [true, true, false, false, false, false]
  | 'c' => some [true, false, false, true, false, false]
  | 'd' => some [true, false, false, true, true, false]
  | 'e' => some [true, false, false, false, true, false]
  | 'f' => some [true, true, false, true, false, false]
  | 'g' => some [true, true, false, true, true, false]
  | 'h' => some [true, true, false, false, true, false]
  | 'i' => some [false, true, false, true, false, false]
  | 'j' => some [false, true, false, true, true, false]
  | 'k' => some [true, false, true, false, false, false]
  | 'l' => some [true, true, true, false, false, false]
  | 'm' => some [true, false, true, true, false, false]
  | 'n' => some [true, false, true, true, true, false]
  | 'o' => some [true, false, true, false, true, false]
  | 'p' => some [true, true, true, true, false, false]
  | 'q' => some [true, true, true, true, true, false]
  | 'r' => some [true, true, true, false, true, false]
  | 's' => some [false, true, true, true, false, false]
  | 't' => some [false, true, true, true, true, false]
  | 'u' => some [true, false, true, false, false, true]
  | 'v' => some [true, true, true, false, false, true]
  | 'w' => some [false, true, false, true, true, true]
  | 'x' => some [true, false, true, true, false, true]
  | 'y' => some [true, false, true, true, true, true]
  | 'z' => some [true, false, true, false, true, true]
  | _ => none

/-- `'000000'`, the code of characters outside the table. -/
def zeroCode : Code := [false, false, false, false, false, false]

/-- `word_to_braille`: `''.join(braille_map.get(c.lower(), '000000') for c in word)`. -/
def word_to_braille (w : Word) : Code :=
  (w.map (fun c => (braille_map (lowerChar c)).getD zeroCode)).flatten

/-- `k in d` / `d[k]` read access for an association list (Python dict). -/
def lookupKey {κ ν : Type} [DecidableEq κ] (l : List (κ × ν)) (k : κ) : Option ν :=
  (l.find? (fun p => p.1 = k)).map (fun p => p.2)

/-- `d[k] = v` on a Python dict: overwrite in place, or append a new entry. -/
def setKey {κ ν : Type} [DecidableEq κ] (l : List (κ × ν)) (k : κ) (v : ν) : List (κ × ν) :=
  if l.any (fun p => p.1 = k) then
    l.map (fun p => if p.1 = k then (k, v) else p)
  else l ++ [(k, v)]

/-- `defaultdict(list)` bucket table keyed by code length. -/
abbrev Buckets := List (Nat × List Word)

def bucketsContains (d : Buckets) (k : Nat) : Bool := d.any (fun p => p.1 = k)

def bucketsLookup (d : Buckets) (k : Nat) : Option (List Word) := lookupKey d k

/-- `defaultdict` item access `d[k]`: on a miss it inserts (and returns) a
fresh empty list — this is the mutation the `if length in ...` guard in
`suggest_words` avoids. -/
def bucketsGetItem (d : Buckets) (k : Nat) : List Word × Buckets :=
  match bucketsLookup d k with
  | some v => (v, d)
  | none => ([], d ++ [(k, [])])

/-- `self.words_by_length[len(pattern)].append(word)` in `_preprocess_dictionary`. -/
def bucketsAppend (d : Buckets) (k : Nat) (w : Word) : Buckets :=
  if bucketsContains d k then
    d.map (fun p => if p.1 = k then (p.1, p.2 ++ [w]) else p)
  else d ++ [(k, [w])]

/-- The `braille_words` cache built by `_preprocess_dictionary`
(`self.braille_words[word] = braille_pattern`). -/
def mkBrailleWords (dict : List Word) : List (Word × Code) :=
  dict.foldl (fun bw w => setKey bw w (word_to_braille w)) []

/-- The `words_by_length` buckets built by `_preprocess_dictionary`. -/
def mkBuckets (dict : List Word) : Buckets :=
  dict.foldl (fun d w => bucketsAppend d (word_to_braille w).length w) []

/-- Engine state after `__init__`: the loaded dictionary, the two
precomputed indexes, and the learned-correction store. File I/O
(`load_dictionary` / `load_memory`) is the external collaborator that
supplies `dictionary` and `user_corrections`. -/
structure Engine where
  dictionary : List Word
  braille_words : List (Word × Code)
  words_by_length : Buckets
  user_corrections : List (Word × Word)
deriving DecidableEq

/-- Engine construction: `_preprocess_dictionary` fills both indexes in one
pass over `self.dictionary`; the two folds here are that same pass split by
accumulator. -/
def mkEngine (dict : List Word) (corrections : List (Word × Word)) : Engine :=
  { dictionary := dict
    braille_words := mkBrailleWords dict
    words_by_length := mkBuckets dict
    user_corrections := corrections }

/-- `remember_choice` on the in-memory store
(`self.user_corrections[typed.lower()] = corrected.lower()`); the JSON
persistence write is external I/O and not modelled. -/
def remember_choice (corrections : List (Word × Word)) (typed corrected : Word) :
    List (Word × Word) :=
  setKey corrections (typed.map lowerChar) (corrected.map lowerChar)

/-!
## `suggest_words`

Stage-by-stage embedding of `BrailleAutoCorrect.suggest_words`. The
`defaultdict` bucket table is threaded through explicitly, and the returned
`Engine` is the post-call state (claim C10 is that it never changes).
-/

/-- A returned suggestion `(word, distance, confidence_score)`. -/
abbrev Suggestion := Word × Nat × ℚ

/-- The learned-correction short-circuit: lines
`if input_word in self.user_corrections: ... if learned_word in self.dictionary:
return [(learned_word, 0, 1.0)]`. -/
def learnedHit (eng : Engine) (input : Word) : Option Suggestion :=
  match lookupKey eng.user_corrections input with
  | some learned => if learned ∈ eng.dictionary then some (learned, 0, 1) else none
  | none => none

/-- Adaptive budget from the (lowercased) input word length when
`max_distance is None`. -/
def adaptiveBudget (input : Word) : Nat :=
  if input.length ≤ 3 then 6 else if input.length ≤ 5 then 5 else 4

/-- `search_lengths = [input_len]` then for `i in 1..max_distance`:
append `input_len - i` when positive, then `input_len + i`. -/
def searchLengths (L : Nat) (budget : Nat) : List Nat :=
  (List.range' 1 budget).foldl
    (fun acc i => acc ++ ((if 0 < L - i then [L - i] else []) ++ [L + i])) [L]

/-- `word in self.user_corrections.values()`. -/
def isLearnedValue (corrections : List (Word × Word)) (w : Word) : Bool :=
  corrections.any (fun p => p.2 = w)

/-- The body of the bucket loop for one candidate word: compute the budgeted
distance, and keep `(word, distance, round(confidence, 3))` when the distance
is within the budget. -/
def keepEntry (corrections : List (Word × Word)) (bw : List (Word × Code))
    (inputCode : Code) (budget : Nat) (w : Word) : List Suggestion :=
  let word_braille := (lookupKey bw w).getD []
  let distance := levenshtein_optimized inputCode word_braille (some budget)
  if distance ≤ budget then
    let confidence : ℚ :=
      1 - (distance : ℚ) / ((inputCode.length : ℚ) + (word_braille.length : ℚ))
    let confidence := if isLearnedValue corrections w then confidence + 1/10 else confidence
    [(w, distance, round3 confidence)]
  else []

/-- `for length in search_lengths: if length in self.words_by_length: ...`,
threading the `defaultdict` state through the guarded item accesses. -/
def scanBuckets (corrections : List (Word × Word)) (bw : List (Word × Code))
    (inputCode : Code) (budget : Nat) (lengths : List Nat) (d : Buckets) :
    List Suggestion × Buckets :=
  lengths.foldl
    (fun acc len =>
      if bucketsContains acc.2 len then
        ((bucketsGetItem acc.2 len).1.foldl
            (fun sugs w => sugs ++ keepEntry corrections bw inputCode budget w) acc.1,
          (bucketsGetItem acc.2 len).2)
      else acc)
    ([], d)

/-- The sort key `lambda x: (x[1], -x[2])` as a total preorder: ascending
distance, then descending confidence. -/
def leSug (a b : Suggestion) : Prop :=
  a.2.1 < b.2.1 ∨ (a.2.1 = b.2.1 ∧ b.2.2 ≤ a.2.2)

instance : DecidableRel leSug := fun a b => by unfold leSug; infer_instance

/-- The fallback sort key `lambda x: x[1]`. -/
def leDist (a b : Suggestion) : Prop := a.2.1 ≤ b.2.1

instance : DecidableRel leDist := fun a b => by unfold leDist; infer_instance

/-- Python list slicing `l[:k]` for an `int` bound `k`: a negative bound
drops the last `|k|` elements. -/
def pySlice {γ : Type} (k : Int) (l : List γ) : List γ :=
  if 0 ≤ k then l.take k.toNat else l.take (l.length - (-k).toNat)

/-- `suggest_words(input_word, max_suggestions, max_distance)`, returning the
suggestion list together with the post-call engine state. -/
def suggest_words (eng : Engine) (input_word : Word) (max_suggestions : Int)
    (max_distance : Option Nat) : List Suggestion × Engine :=
  let input := input_word.map lowerChar
  match learnedHit eng input with
  | some s => ([s], eng)
  | none =>
      let input_braille := word_to_braille input
      let input_len := input_braille.length
      let budget := max_distance.getD (adaptiveBudget input)
      let scan := scanBuckets eng.user_corrections eng.braille_words input_braille budget
        (searchLengths input_len budget) eng.words_by_length
      let suggestions := sortBy leSug scan.1
      if suggestions.isEmpty then
        let fallback := eng.braille_words.map
          (fun p => (p.1, levenshtein_optimized input_braille p.2 none, (0 : ℚ)))
        ((sortBy leDist fallback).take 1, { eng with words_by_length := scan.2 })
      else (pySlice max_suggestions suggestions, { eng with words_by_length := scan.2 })

/-!
## Association-list and index lemmas
-/

theorem lookupKey_cons {κ ν : Type} [DecidableEq κ] (k' : κ) (v : ν) (l : List (κ × ν)) (k : κ) :
    lookupKey ((k', v) :: l) k = if k' = k then some v else lookupKey l k := by
  unfold lookupKey
  by_cases h : k' = k
  · rw [List.find?_cons_of_pos _ (by simp [h]), if_pos h]
    rfl
  · rw [List.find?_cons_of_neg _ (by simp [h]), if_neg h]

theorem lookup_map_set {κ ν : Type} [DecidableEq κ] (k : κ) (v : ν) :
    ∀ l : List (κ × ν), l.any (fun p => p.1 = k) = true →
      lookupKey (l.map (fun p => if p.1 = k then (k, v) else p)) k = some v := by
  intro l
  induction l with
  | nil => intro h; simp at h
  | cons q l ih =>
      intro h
      by_cases hq : q.1 = k
      · simp only [List.map_cons, if_pos hq]
        rw [lookupKey_cons, if_pos rfl]
      · simp only [List.map_cons, if_neg hq]
        have hcons : (q.1, q.2) = q := rfl
        rw [← hcons, lookupKey_cons, if_neg hq]
        apply ih
        simp only [List.any_cons, Bool.or_eq_true, decide_eq_true_eq] at h
        rcases h with h | h
        · exact absurd h hq
        · exact h

theorem lookup_append_set {κ ν : Type} [DecidableEq κ] (k : κ) (v : ν) :
    ∀ l : List (κ × ν), l.any (fun p => p.1 = k) = false →
      lookupKey (l ++ [(k, v)]) k = some v := by
  intro l
  induction l with
  | nil =>
      intro _
      rw [List.nil_append, lookupKey_cons, if_pos rfl]
  | cons q l ih =>
      intro h
      simp only [List.any_cons, Bool.or_eq_false_iff, decide_eq_false_iff_not] at h
      have hcons : (q.1, q.2) = q := rfl
      rw [List.cons_append, ← hcons, lookupKey_cons, if_neg h.1]
      exact ih h.2

theorem setKey_lookup_self {κ ν : Type} [DecidableEq κ] (l : List (κ × ν)) (k : κ) (v : ν) :
    lookupKey (setKey l k v) k = some v := by
  unfold setKey
  rcases Bool.eq_false_or_eq_true (l.any (fun p => p.1 = k)) with ht | hf
  · rw [ht, if_pos rfl]
    exact lookup_map_set k v l ht
  · rw [hf]
    simp only [Bool.false_eq_true, if_false]
    exact lookup_append_set k v l hf

theorem lookup_map_set_other {κ ν : Type} [DecidableEq κ] (k k' : κ) (v : ν) (hne : k' ≠ k) :
    ∀ l : List (κ × ν),
      lookupKey (l.map (fun p => if p.1 = k then (k, v) else p)) k' = lookupKey l k' := by
  intro l
  induction l with
  | nil => rfl
  | cons q l ih =>
      simp only [List.map_cons]
      by_cases hq : q.1 = k
      · rw [if_pos hq, lookupKey_cons, if_neg (fun h => hne h.symm)]
        have hcons : (q.1, q.2) = q := rfl
        rw [← hcons, lookupKey_cons, if_neg (fun h => hne (hq ▸ h).symm)]
        exact ih
      · rw [if_neg hq]
        have hcons : (q.1, q.2) = q := rfl
        rw [← hcons, lookupKey_cons, lookupKey_cons]
        by_cases hqk : q.1 = k'
        · rw [if_pos hqk, if_pos hqk]
        · rw [if_neg hqk, if_neg hqk]
          exact ih

theorem lookup_append_other {κ ν : Type} [DecidableEq κ] (k k' : κ) (v : ν) (hne : k' ≠ k) :
    ∀ l : List (κ × ν), lookupKey (l ++ [(k, v)]) k' = lookupKey l k' := by
  intro l
  induction l with
  | nil =>
      rw [List.nil_append, lookupKey_cons, if_neg (fun h => hne h.symm)]
  | cons q l ih =>
      have hcons : (q.1, q.2) = q := rfl
      rw [List.cons_append, ← hcons, lookupKey_cons, lookupKey_cons]
      by_cases hqk : q.1 = k'
      · rw [if_pos hqk, if_pos hqk]
      · rw [if_neg hqk, if_neg hqk]
        exact ih

theorem setKey_lookup_other {κ ν : Type} [DecidableEq κ] (l : List (κ × ν)) (k k' : κ)
    (v : ν) (hne : k' ≠ k) : lookupKey (setKey l k v) k' = lookupKey l k' := by
  unfold setKey
  split
  · exact lookup_map_set_other k k' v hne l
  · exact lookup_append_other k k' v hne l

theorem lookupKey_mem {κ ν : Type} [DecidableEq κ] {l : List (κ × ν)} {k : κ} {v : ν}
    (h : lookupKey l k = some v) : (k, v) ∈ l := by
  unfold lookupKey at h
  cases hf : l.find? (fun p => p.1 = k) with
  | none => rw [hf] at h; cases h
  | some p =>
      rw [hf] at h
      have hm := List.mem_of_find?_eq_some hf
      have hp := List.find?_some hf
      simp only [decide_eq_true_eq] at hp
      simp at h
      have hpk : p = (k, v) := by
        obtain ⟨p1, p2⟩ := p
        simp_all
      rw [← hpk]
      exact hm

theorem setKey_mem {κ ν : Type} [DecidableEq κ] {p : κ × ν} {l : List (κ × ν)} {k : κ} {v : ν}
    (h : p ∈ setKey l k v) : p ∈ l ∨ p = (k, v) := by
  unfold setKey at h
  split at h
  · rcases List.mem_map.mp h with ⟨q, hq, hpq⟩
    by_cases hqk : q.1 = k
    · rw [if_pos hqk] at hpq
      right; exact hpq.symm
    · rw [if_neg hqk] at hpq
      left; rw [← hpq]; exact hq
  · rcases List.mem_append.mp h with h1 | h1
    · left; exact h1
    · right; simpa using h1

theorem bw_fold_preserve (dict : List Word) :
    ∀ (init : List (Word × Code)) (w : Word),
      lookupKey init w = some (word_to_braille w) →
      lookupKey (dict.foldl (fun bw u => setKey bw u (word_to_braille u)) init) w
        = some (word_to_braille w) := by
  induction dict with
  | nil => intro init w h; exact h
  | cons u rest ih =>
      intro init w h
      apply ih
      by_cases huw : w = u
      · subst huw
        exact setKey_lookup_self init w (word_to_braille w)
      · rw [setKey_lookup_other init u w _ huw]
        exact h

theorem bw_fold_lookup (dict : List Word) :
    ∀ (init : List (Word × Code)) (w : Word), w ∈ dict →
      lookupKey (dict.foldl (fun bw u => setKey bw u (word_to_braille u)) init) w
        = some (word_to_braille w) := by
  induction dict with
  | nil => intro init w hw; cases hw
  | cons u rest ih =>
      intro init w hw
      rcases List.mem_cons.mp hw with rfl | hw'
      · exact bw_fold_preserve rest _ w (setKey_lookup_self init w (word_to_braille w))
      · exact ih _ w hw'

/-- After preprocessing, every dictionary word's cached code is its encoding. -/
theorem mkBrailleWords_lookup {dict : List Word} {w : Word} (hw : w ∈ dict) :
    lookupKey (mkBrailleWords dict) w = some (word_to_braille w) :=
  bw_fold_lookup dict [] w hw

theorem mkBrailleWords_mem {dict : List Word} {w : Word} (hw : w ∈ dict) :
    (w, word_to_braille w) ∈ mkBrailleWords dict :=
  lookupKey_mem (mkBrailleWords_lookup hw)

theorem bw_fold_pairs (dict0 : List Word) :
    ∀ (dict : List Word) (init : List (Word × Code)),
      (∀ u ∈ dict, u ∈ dict0) →
      (∀ p ∈ init, p.1 ∈ dict0 ∧ p.2 = word_to_braille p.1) →
      ∀ p ∈ dict.foldl (fun bw u => setKey bw u (word_to_braille u)) init,
        p.1 ∈ dict0 ∧ p.2 = word_to_braille p.1 := by
  intro dict
  induction dict with
  | nil => intro init _ hinit p hp; exact hinit p hp
  | cons u rest ih =>
      intro init hsub hinit p hp
      refine ih _ (fun v hv => hsub v (List.mem_cons_of_mem u hv)) ?_ p hp
      intro q hq
      rcases setKey_mem hq with hq1 | hq1
      · exact hinit q hq1
      · rw [hq1]
        exact ⟨hsub u (List.mem_cons_self u rest), rfl⟩

/-- Every cached pair is a dictionary word with its encoding. -/
theorem mkBrailleWords_pairs {dict : List Word} {p : Word × Code}
    (hp : p ∈ mkBrailleWords dict) : p.1 ∈ dict ∧ p.2 = word_to_braille p.1 :=
  bw_fold_pairs dict dict [] (fun _ h => h) (fun _ h => by cases h) p hp

theorem contains_of_lookup_some {d : Buckets} {k : Nat} {b : List Word}
    (h : bucketsLookup d k = some b) : bucketsContains d k = true := by
  unfold bucketsLookup lookupKey at h
  unfold bucketsContains
  cases hf : d.find? (fun p => p.1 = k) with
  | none => rw [hf] at h; cases h
  | some p =>
      have hm := List.mem_of_find?_eq_some hf
      have hp := List.find?_some hf
      exact List.any_eq_true.mpr ⟨p, hm, hp⟩

theorem lookup_none_of_contains_false {d : Buckets} {k : Nat}
    (h : bucketsContains d k = false) : bucketsLookup d k = none := by
  unfold bucketsContains at h
  unfold bucketsLookup lookupKey
  cases hf : d.find? (fun p => p.1 = k) with
  | none => rfl
  | some p =>
      have hm := List.mem_of_find?_eq_some hf
      have hp := List.find?_some hf
      rw [List.any_eq_true.mpr ⟨p, hm, hp⟩] at h
      cases h

theorem lookup_some_of_contains {d : Buckets} {k : Nat}
    (h : bucketsContains d k = true) : ∃ b, bucketsLookup d k = some b := by
  unfold bucketsContains at h
  rcases List.any_eq_true.mp h with ⟨p, hp, hpk⟩
  unfold bucketsLookup lookupKey
  cases hf : d.find? (fun p => p.1 = k) with
  | none =>
      rw [List.find?_eq_none] at hf
      exact absurd hpk (by simpa using hf p hp)
  | some q => exact ⟨q.2, rfl⟩

theorem blookup_map_append (k : Nat) (w : Word) :
    ∀ d : Buckets,
      bucketsLookup (d.map (fun p => if p.1 = k then (p.1, p.2 ++ [w]) else p)) k
        = (bucketsLookup d k).map (fun b => b ++ [w]) := by
  intro d
  induction d with
  | nil => rfl
  | cons q d ih =>
      obtain ⟨qk, qv⟩ := q
      simp only [List.map_cons]
      unfold bucketsLookup at *
      by_cases hq : qk = k
      · simp only [if_pos hq]
        rw [lookupKey_cons, lookupKey_cons, if_pos hq, if_pos hq]
        rfl
      · simp only [if_neg hq]
        rw [lookupKey_cons, lookupKey_cons, if_neg hq, if_neg hq]
        exact ih

theorem blookup_map_append_other (k k' : Nat) (w : Word) (hne : k' ≠ k) :
    ∀ d : Buckets,
      bucketsLookup (d.map (fun p => if p.1 = k then (p.1, p.2 ++ [w]) else p)) k'
        = bucketsLookup d k' := by
  intro d
  induction d with
  | nil => rfl
  | cons q d ih =>
      obtain ⟨qk, qv⟩ := q
      simp only [List.map_cons]
      unfold bucketsLookup at *
      by_cases hq : qk = k
      · simp only [if_pos hq]
        rw [lookupKey_cons, lookupKey_cons,
          if_neg (show ¬ qk = k' from fun h => hne (h ▸ hq ▸ rfl)),
          if_neg (show ¬ qk = k' from fun h => hne (h ▸ hq ▸ rfl))]
        exact ih
      · simp only [if_neg hq]
        rw [lookupKey_cons, lookupKey_cons]
        by_cases hqk : qk = k'
        · rw [if_pos hqk, if_pos hqk]
        · rw [if_neg hqk, if_neg hqk]
          exact ih

theorem bucketsAppend_lookup_self (d : Buckets) (k : Nat) (w : Word) :
    bucketsLookup (bucketsAppend d k w) k
      = some (((bucketsLookup d k).getD []) ++ [w]) := by
  unfold bucketsAppend
  rcases Bool.eq_false_or_eq_true (bucketsContains d k) with ht | hf
  · rw [ht, if_pos rfl, blookup_map_append]
    rcases lookup_some_of_contains ht with ⟨b, hb⟩
    rw [hb]
    rfl
  · rw [hf]
    simp only [Bool.false_eq_true, if_false]
    rw [lookup_none_of_contains_false hf]
    unfold bucketsContains at hf
    exact lookup_append_set k [w] d hf

theorem bucketsAppend_lookup_other (d : Buckets) (k k' : Nat) (w : Word) (hne : k' ≠ k) :
    bucketsLookup (bucketsAppend d k w) k' = bucketsLookup d k' := by
  unfold bucketsAppend
  split
  · exact blookup_map_append_other k k' w hne d
  · exact lookup_append_other k k' [w] hne d

theorem bk_fold_preserve (dict : List Word) :
    ∀ (init : Buckets) (w : Word) (b : List Word),
      bucketsLookup init (word_to_braille w).length = some b → w ∈ b →
      ∃ b', bucketsLookup
          (dict.foldl (fun d u => bucketsAppend d (word_to_braille u).length u) init)
          (word_to_braille w).length = some b' ∧ w ∈ b' := by
  induction dict with
  | nil => intro init w b hb hw; exact ⟨b, hb, hw⟩
  | cons u rest ih =>
      intro init w b hb hw
      by_cases hk : (word_to_braille w).length = (word_to_braille u).length
      · refine ih _ w (b ++ [u]) ?_ (List.mem_append_left _ hw)
        rw [hk] at hb ⊢
        rw [bucketsAppend_lookup_self, hb]
        rfl
      · refine ih _ w b ?_ hw
        rw [bucketsAppend_lookup_other _ _ _ _ hk]
        exact hb

theorem bk_fold_mem (dict : List Word) :
    ∀ (init : Buckets) (w : Word), w ∈ dict →
      ∃ b, bucketsLookup
          (dict.foldl (fun d u => bucketsAppend d (word_to_braille u).length u) init)
          (word_to_braille w).length = some b ∧ w ∈ b := by
  induction dict with
  | nil => intro init w hw; cases hw
  | cons u rest ih =>
      intro init w hw
      rcases List.mem_cons.mp hw with rfl | hw'
      · refine bk_fold_preserve rest _ w
          (((bucketsLookup init (word_to_braille w).length).getD []) ++ [w]) ?_
          (List.mem_append_right _ (List.mem_singleton.mpr rfl))
        exact bucketsAppend_lookup_self init (word_to_braille w).length w
      · exact ih _ w hw'

/-- Every dictionary word is in the bucket keyed by its code length. -/
theorem mkBuckets_mem {dict : List Word} {w : Word} (hw : w ∈ dict) :
    ∃ b, bucketsLookup (mkBuckets dict) (word_to_braille w).length = some b ∧ w ∈ b :=
  bk_fold_mem dict [] w hw

theorem bucketsAppend_mem {p : Nat × List Word} {d : Buckets} {k : Nat} {w : Word}
    (h : p ∈ bucketsAppend d k w) :
    p ∈ d ∨ (∃ q ∈ d, q.1 = k ∧ p = (q.1, q.2 ++ [w])) ∨ p = (k, [w]) := by
  unfold bucketsAppend at h
  split at h
  · rcases List.mem_map.mp h with ⟨q, hq, hpq⟩
    by_cases hqk : q.1 = k
    · rw [if_pos hqk] at hpq
      right; left; exact ⟨q, hq, hqk, hpq.symm⟩
    · rw [if_neg hqk] at hpq
      left; rw [← hpq]; exact hq
  · rcases List.mem_append.mp h with h1 | h1
    · left; exact h1
    · right; right; simpa using h1

theorem bk_fold_pairs (dict0 : List Word) :
    ∀ (dict : List Word) (init : Buckets),
      (∀ u ∈ dict, u ∈ dict0) →
      (∀ p ∈ init, ∀ v ∈ p.2, v ∈ dict0 ∧ (word_to_braille v).length = p.1) →
      ∀ p ∈ dict.foldl (fun d u => bucketsAppend d (word_to_braille u).length u) init,
        ∀ v ∈ p.2, v ∈ dict0 ∧ (word_to_braille v).length = p.1 := by
  intro dict
  induction dict with
  | nil => intro init _ hinit p hp; exact hinit p hp
  | cons u rest ih =>
      intro init hsub hinit p hp
      refine ih _ (fun v hv => hsub v (List.mem_cons_of_mem u hv)) ?_ p hp
      intro q hq v hv
      rcases bucketsAppend_mem hq with hq1 | hq1 | hq1
      · exact hinit q hq1 v hv
      · rcases hq1 with ⟨r, hr, hrk, hqr⟩
        rw [hqr] at hv ⊢
        rcases List.mem_append.mp hv with hv1 | hv1
        · exact hinit r hr v hv1
        · have hvu : v = u := List.mem_singleton.mp hv1
          subst hvu
          exact ⟨hsub v (List.mem_cons_self v rest), hrk.symm⟩
      · rw [hq1] at hv ⊢
        have hvu : v = u := List.mem_singleton.mp hv
        subst hvu
        exact ⟨hsub v (List.mem_cons_self v rest), rfl⟩

/-- Bucket well-formedness: every word in the bucket for key `len` is a
dictionary word whose code length is `len`. -/
theorem mkBuckets_pairs {dict : List Word} {len : Nat} {b : List Word}
    (hb : bucketsLookup (mkBuckets dict) len = some b) :
    ∀ v ∈ b, v ∈ dict ∧ (word_to_braille v).length = len := by
  intro v hv
  have hp : (len, b) ∈ mkBuckets dict := lookupKey_mem hb
  exact bk_fold_pairs dict dict [] (fun _ h => h) (fun _ h => by cases h) (len, b) hp v hv

/-!
## Characterizing the bucket scan
-/

theorem foldl_append_eq {γ δ : Type} (g : δ → List γ) :
    ∀ (l : List δ) (init : List γ),
      l.foldl (fun acc x => acc ++ g x) init = init ++ (l.map g).flatten := by
  intro l
  induction l with
  | nil => intro init; simp
  | cons x xs ih =>
      intro init
      show xs.foldl (fun acc x => acc ++ g x) (init ++ g x) = _
      rw [ih (init ++ g x)]
      simp

theorem bucketsGetItem_of_some {d : Buckets} {k : Nat} {b : List Word}
    (h : bucketsLookup d k = some b) : bucketsGetItem d k = (b, d) := by
  unfold bucketsGetItem
  rw [h]

/-- The suggestions contributed by one probed length. -/
def scanBucketOf (corrections : List (Word × Word)) (bw : List (Word × Code))
    (inputCode : Code) (budget : Nat) (d : Buckets) (len : Nat) : List Suggestion :=
  match bucketsLookup d len with
  | some bucket => (bucket.map (keepEntry corrections bw inputCode budget)).flatten
  | none => []

theorem scan_fold_eq (corrections : List (Word × Word)) (bw : List (Word × Code))
    (inputCode : Code) (budget : Nat) (d : Buckets) :
    ∀ (lengths : List Nat) (sugs0 : List Suggestion),
      lengths.foldl
        (fun acc len =>
          if bucketsContains acc.2 len then
            ((bucketsGetItem acc.2 len).1.foldl
                (fun sugs w => sugs ++ keepEntry corrections bw inputCode budget w) acc.1,
              (bucketsGetItem acc.2 len).2)
          else acc)
        (sugs0, d)
      = (sugs0 ++ (lengths.map (scanBucketOf corrections bw inputCode budget d)).flatten, d) := by
  intro lengths
  induction lengths with
  | nil => intro sugs0; simp
  | cons len rest ih =>
      intro sugs0
      show List.foldl _ (if bucketsContains d len then _ else _) rest = _
      rcases Bool.eq_false_or_eq_true (bucketsContains d len) with ht | hf
      · rcases lookup_some_of_contains ht with ⟨b, hb⟩
        rw [ht]
        simp only [if_true]
        rw [bucketsGetItem_of_some hb]
        show rest.foldl _
          (b.foldl (fun sugs w => sugs ++ keepEntry corrections bw inputCode budget w) sugs0, d)
            = _
        rw [foldl_append_eq _ b sugs0, ih]
        unfold scanBucketOf
        rw [List.map_cons, hb]
        simp
      · rw [hf]
        simp only [Bool.false_eq_true, if_false]
        rw [ih]
        unfold scanBucketOf
        rw [List.map_cons, lookup_none_of_contains_false hf]
        simp

theorem scanBuckets_eq (corrections : List (Word × Word)) (bw : List (Word × Code))
    (inputCode : Code) (budget : Nat) (lengths : List Nat) (d : Buckets) :
    scanBuckets corrections bw inputCode budget lengths d
      = ((lengths.map (scanBucketOf corrections bw inputCode budget d)).flatten, d) := by
  unfold scanBuckets
  rw [scan_fold_eq]
  simp

/-- `suggest_words` never mutates the bucket table: the guard
`if length in self.words_by_length` keeps the `defaultdict` from creating
entries. -/
theorem scanBuckets_snd (corrections : List (Word × Word)) (bw : List (Word × Code))
    (inputCode : Code) (budget : Nat) (lengths : List Nat) (d : Buckets) :
    (scanBuckets corrections bw inputCode budget lengths d).2 = d := by
  rw [scanBuckets_eq]

theorem mem_scanBuckets {corrections : List (Word × Word)} {bw : List (Word × Code)}
    {inputCode : Code} {budget : Nat} {lengths : List Nat} {d : Buckets} {s : Suggestion} :
    s ∈ (scanBuckets corrections bw inputCode budget lengths d).1 ↔
      ∃ len ∈ lengths, ∃ bucket, bucketsLookup d len = some bucket ∧
        ∃ w ∈ bucket, s ∈ keepEntry corrections bw inputCode budget w := by
  rw [scanBuckets_eq]
  simp only [List.mem_flatten, List.mem_map]
  constructor
  · rintro ⟨l, ⟨len, hlen, rfl⟩, hs⟩
    unfold scanBucketOf at hs
    cases hb : bucketsLookup d len with
    | none => rw [hb] at hs; cases hs
    | some bucket =>
        rw [hb] at hs
        rcases List.mem_flatten.mp hs with ⟨l2, hl2, hsl2⟩
        rcases List.mem_map.mp hl2 with ⟨w, hw, rfl⟩
        exact ⟨len, hlen, bucket, hb, w, hw, hsl2⟩
  · rintro ⟨len, hlen, bucket, hb, w, hw, hs⟩
    refine ⟨scanBucketOf corrections bw inputCode budget d len, ⟨len, hlen, rfl⟩, ?_⟩
    unfold scanBucketOf
    rw [hb]
    exact List.mem_flatten.mpr ⟨keepEntry corrections bw inputCode budget w,
      List.mem_map.mpr ⟨w, hw, rfl⟩, hs⟩

theorem mem_keepEntry {corrections : List (Word × Word)} {bw : List (Word × Code)}
    {inputCode : Code} {budget : Nat} {w : Word} {s : Suggestion}
    (hs : s ∈ keepEntry corrections bw inputCode budget w) :
    levenshtein_optimized inputCode ((lookupKey bw w).getD []) (some budget) ≤ budget ∧
      s = (w, levenshtein_optimized inputCode ((lookupKey bw w).getD []) (some budget),
        round3 (if isLearnedValue corrections w then
          1 - (levenshtein_optimized inputCode ((lookupKey bw w).getD []) (some budget) : ℚ)
            / ((inputCode.length : ℚ) + (((lookupKey bw w).getD []).length : ℚ)) + 1/10
        else
          1 - (levenshtein_optimized inputCode ((lookupKey bw w).getD []) (some budget) : ℚ)
            / ((inputCode.length : ℚ) + (((lookupKey bw w).getD []).length : ℚ)))) := by
  unfold keepEntry at hs
  by_cases h : levenshtein_optimized inputCode ((lookupKey bw w).getD []) (some budget) ≤ budget
  · rw [if_pos h] at hs
    refine ⟨h, ?_⟩
    rcases List.mem_singleton.mp hs with rfl
    by_cases hl : isLearnedValue corrections w
    · simp only [if_pos hl, hl, if_true]
    · simp only [hl, Bool.false_eq_true, if_false]
  · rw [if_neg h] at hs
    cases hs

theorem mem_keepEntry_of_le {corrections : List (Word × Word)} {bw : List (Word × Code)}
    {inputCode : Code} {budget : Nat} {w : Word}
    (h : levenshtein_optimized inputCode ((lookupKey bw w).getD []) (some budget) ≤ budget) :
    ∃ c, (w, levenshtein_optimized inputCode ((lookupKey bw w).getD []) (some budget), c)
      ∈ keepEntry corrections bw inputCode budget w := by
  unfold keepEntry
  rw [if_pos h]
  exact ⟨_, List.mem_singleton.mpr rfl⟩

theorem searchLengths_self (L budget : Nat) : L ∈ searchLengths L budget := by
  unfold searchLengths
  rw [foldl_append_eq]
  exact List.mem_append_left _ (List.mem_singleton.mpr rfl)

theorem sortBy_eq_nil_iff {α : Type} (le : α → α → Prop) [DecidableRel le] (l : List α) :
    sortBy le l = [] ↔ l = [] := by
  constructor
  · intro h
    have := length_sortBy le l
    rw [h] at this
    exact List.length_eq_zero.mp this.symm
  · intro h; rw [h]; rfl

/-- Structure eta for the engine record. -/
theorem engine_eta (eng : Engine) :
    { dictionary := eng.dictionary, braille_words := eng.braille_words,
      words_by_length := eng.words_by_length,
      user_corrections := eng.user_corrections : Engine } = eng := rfl

/-- The bucket-scan suggestions computed by `suggest_words` for a
(lowercased) input under a resolved budget. -/
def mainScan (eng : Engine) (input : Word) (budget : Nat) : List Suggestion :=
  (scanBuckets eng.user_corrections eng.braille_words (word_to_braille input) budget
    (searchLengths (word_to_braille input).length budget) eng.words_by_length).1

/-- The budget `suggest_words` resolves: the explicit argument, or the
adaptive one. -/
def mainBudget (input : Word) (md : Option Nat) : Nat := md.getD (adaptiveBudget input)

/-- The unbudgeted fallback scan over the whole cached dictionary. -/
def fallbackList (eng : Engine) (input : Word) : List Suggestion :=
  eng.braille_words.map
    (fun p => (p.1, levenshtein_optimized (word_to_braille input) p.2 none, (0 : ℚ)))

theorem suggest_words_hit {eng : Engine} {w : Word} {k : Int} {md : Option Nat}
    {s : Suggestion} (h : learnedHit eng (w.map lowerChar) = some s) :
    suggest_words eng w k md = ([s], eng) := by
  unfold suggest_words
  dsimp only
  rw [h]

theorem suggest_words_main {eng : Engine} {w : Word} {k : Int} {md : Option Nat}
    (h : learnedHit eng (w.map lowerChar) = none)
    (hne : mainScan eng (w.map lowerChar) (mainBudget (w.map lowerChar) md) ≠ []) :
    suggest_words eng w k md
      = (pySlice k (sortBy leSug
          (mainScan eng (w.map lowerChar) (mainBudget (w.map lowerChar) md))), eng) := by
  unfold suggest_words
  dsimp only
  rw [h]
  show (if (sortBy leSug _).isEmpty then _ else _) = _
  rw [if_neg ?hcond]
  case hcond =>
    intro hcon
    apply hne
    apply (sortBy_eq_nil_iff leSug _).mp
    exact List.isEmpty_iff.mp hcon
  show (pySlice k (sortBy leSug
      (scanBuckets eng.user_corrections eng.braille_words _ _ _ eng.words_by_length).1),
    ({ eng with words_by_length :=
      (scanBuckets eng.user_corrections eng.braille_words _ _ _ eng.words_by_length).2 }
      : Engine)) = _
  rw [scanBuckets_snd]
  rfl

theorem suggest_words_fallback {eng : Engine} {w : Word} {k : Int} {md : Option Nat}
    (h : learnedHit eng (w.map lowerChar) = none)
    (he : mainScan eng (w.map lowerChar) (mainBudget (w.map lowerChar) md) = []) :
    suggest_words eng w k md
      = ((sortBy leDist (fallbackList eng (w.map lowerChar))).take 1, eng) := by
  unfold suggest_words
  dsimp only
  rw [h]
  show (if (sortBy leSug _).isEmpty then _ else _) = _
  rw [if_pos ?hcond]
  case hcond =>
    apply List.isEmpty_iff.mpr
    apply (sortBy_eq_nil_iff leSug _).mpr
    exact he
  show ((sortBy leDist _).take 1,
    ({ eng with words_by_length :=
      (scanBuckets eng.user_corrections eng.braille_words _ _ _ eng.words_by_length).2 }
      : Engine)) = _
  rw [scanBuckets_snd]
  rfl

theorem leSug_total (a b : Suggestion) : ¬ leSug a b → leSug b a := by
  intro h
  unfold leSug at *
  push_neg at h
  rcases Nat.lt_trichotomy a.2.1 b.2.1 with h1 | h1 | h1
  · omega
  · right
    exact ⟨h1.symm, le_of_lt (h.2 h1)⟩
  · left; exact h1

theorem leSug_trans (a b c : Suggestion) : leSug a b → leSug b c → leSug a c := by
  intro h1 h2
  unfold leSug at *
  rcases h1 with h1 | ⟨h1, h1c⟩ <;> rcases h2 with h2 | ⟨h2, h2c⟩
  · left; omega
  · left; omega
  · left; omega
  · right; exact ⟨h1.trans h2, le_trans h2c h1c⟩

theorem leDist_total (a b : Suggestion) : ¬ leDist a b → leDist b a := by
  intro h
  unfold leDist at *
  omega

theorem leDist_trans (a b c : Suggestion) : leDist a b → leDist b c → leDist a c := by
  intro h1 h2
  unfold leDist at *
  omega

theorem mem_pySlice {γ : Type} {k : Int} {l : List γ} {s : γ} (h : s ∈ pySlice k l) :
    s ∈ l := by
  unfold pySlice at h
  split at h <;> exact List.mem_of_mem_take h

theorem pySlice_head? {γ : Type} {k : Int} (hk : 1 ≤ k) (l : List γ) :
    (pySlice k l).head? = l.head? := by
  unfold pySlice
  rw [if_pos (by omega)]
  cases l with
  | nil => simp
  | cons x t =>
      have h1 : k.toNat = (k.toNat - 1) + 1 := by omega
      rw [h1, List.take_succ_cons]
      rfl

theorem pySlice_zero {γ : Type} (l : List γ) : pySlice 0 l = [] := by
  unfold pySlice
  rw [if_pos (by omega)]
  rfl

theorem round3_one : round3 1 = 1 := by
  unfold round3 bankersRound
  norm_num

theorem round3_eleven_tenths : round3 (11/10) = 11/10 := by
  unfold round3 bankersRound
  norm_num

/-!
## Claims
-/

/-- C10: `suggest_words` mutates no engine state: after any call, the
dictionary list, the word-to-code map, the length buckets (including the set
of bucket keys, despite the underlying `defaultdict`), and the
learned-correction mapping are all unchanged; probing an absent code length
creates no new bucket. -/
theorem claim_C10 (eng : Engine) (w : Word) (k : Int) (md : Option Nat) :
    (suggest_words eng w k md).2 = eng := by
  cases hl : learnedHit eng (w.map lowerChar) with
  | some s => rw [suggest_words_hit hl]
  | none =>
      by_cases hs : mainScan eng (w.map lowerChar) (mainBudget (w.map lowerChar) md) = []
      · rw [suggest_words_fallback hl hs]
      · rw [suggest_words_main hl hs]

/-- C4: when the lowercased typed word is a learned-correction key whose
corrected word is in the dictionary, `suggest_words` returns exactly the
single suggestion `(corrected, 0, 1.0)`, bypassing encoding, bucket search
and fallback entirely. -/
theorem claim_C4 (eng : Engine) (t : Word) (k : Int) (md : Option Nat) (c : Word)
    (hlk : lookupKey eng.user_corrections (t.map lowerChar) = some c)
    (hcd : c ∈ eng.dictionary) :
    suggest_words eng t k md = ([(c, (0 : Nat), (1 : ℚ))], eng) := by
  apply suggest_words_hit
  unfold learnedHit
  rw [hlk]
  show (if c ∈ eng.dictionary then some (c, 0, 1) else none) = some (c, 0, 1)
  rw [if_pos hcd]

/-- C4 witness: after `remember_choice("xyz", "cat")` with `"cat"` in the
dictionary, `suggest_words("xyz", ...)` returns exactly `[("cat", 0, 1.0)]`. -/
theorem claim_C4_witness :
    lookupKey (remember_choice [] ['x', 'y', 'z'] ['c', 'a', 't'])
        (['x', 'y', 'z'].map lowerChar) = some ['c', 'a', 't'] ∧
    ['c', 'a', 't'] ∈ (mkEngine [['c', 'a', 't']]
        (remember_choice [] ['x', 'y', 'z'] ['c', 'a', 't'])).dictionary ∧
    suggest_words (mkEngine [['c', 'a', 't']]
        (remember_choice [] ['x', 'y', 'z'] ['c', 'a', 't'])) ['x', 'y', 'z'] 5 none
      = ([(['c', 'a', 't'], (0 : Nat), (1 : ℚ))],
          mkEngine [['c', 'a', 't']] (remember_choice [] ['x', 'y', 'z'] ['c', 'a', 't'])) :=
  ⟨by decide, by decide,
    claim_C4 _ ['x', 'y', 'z'] 5 none ['c', 'a', 't'] (by decide) (by decide)⟩

/-- C3: with no budget, `levenshtein_optimized` equals the reference
Levenshtein edit distance. -/
theorem claim_C3 (a b : List Bool) : levenshtein_optimized a b none = levRef a b :=
  levenshtein_optimized_none a b

/-- C2 counterexample: with budget 0 (falsy in Python), the function computes
the full distance instead of the sentinel `0 + 1`: on `"00"` vs `"11"` the
true distance 2 exceeds the budget but the returned value is 2, not 1. -/
theorem claim_C2_cex :
    0 < levRef [false, false] [true, true] ∧
      levenshtein_optimized [false, false] [true, true] (some 0) ≠ 0 + 1 := by
  constructor
  · norm_num [levRef, levRef_nil_left, levRef_nil_right, cost]
  · decide

/-- C2 (amended): whenever the true edit distance between `a` and `b` exceeds
the budget `d`, the budgeted call returns a value strictly greater than `d`
(at least `d + 1`) — but not always exactly `d + 1`. -/
theorem claim_C2 (a b : List Bool) (d : Nat) (h : d < levRef a b) :
    d < levenshtein_optimized a b (some d) :=
  levenshtein_optimized_gt h

/-- C2 witness at a concrete input: budget 1 on `"0"` vs `"11"`. -/
theorem claim_C2_witness :
    1 < levRef [false] [true, true] ∧
      1 < levenshtein_optimized [false] [true, true] (some 1) := by
  have h1 : 1 < levRef [false] [true, true] := by
    norm_num [levRef, levRef_nil_left, levRef_nil_right, cost]
  exact ⟨h1, claim_C2 [false] [true, true] 1 h1⟩

/-- C8 counterexample: with `k = 0` and no candidate within the budget, the
fallback IS invoked and the call returns one suggestion, not the empty list
(dictionary `["a"]`, input `"b"`, `max_suggestions = 0`, `max_distance = 0`). -/
theorem claim_C8_cex :
    (suggest_words (mkEngine [['a']] []) ['b'] 0 (some 0)).1 = [(['a'], 1, 0)] ∧
      (suggest_words (mkEngine [['a']] []) ['b'] 0 (some 0)).1 ≠ [] := by
  constructor
  · decide
  · decide

/-- C8 (amended): when the learned short-circuit does not fire, a call with
`k = 0` returns the empty list provided at least one candidate qualifies
within the budget; but when no candidate qualifies, the fallback is invoked
regardless of `k` and returns exactly one suggestion (for a non-empty
dictionary). -/
theorem claim_C8 (dict : List Word) (corr : List (Word × Word)) (w : Word) (k : Int)
    (md : Option Nat)
    (h1 : learnedHit (mkEngine dict corr) (w.map lowerChar) = none) :
    (mainScan (mkEngine dict corr) (w.map lowerChar) (mainBudget (w.map lowerChar) md) ≠ [] →
      k = 0 → (suggest_words (mkEngine dict corr) w k md).1 = []) ∧
    (mainScan (mkEngine dict corr) (w.map lowerChar) (mainBudget (w.map lowerChar) md) = [] →
      dict ≠ [] → ∃ s, (suggest_words (mkEngine dict corr) w k md).1 = [s]) := by
  constructor
  · intro hne hk
    subst hk
    rw [suggest_words_main h1 hne]
    exact pySlice_zero
      (sortBy leSug (mainScan (mkEngine dict corr) (w.map lowerChar)
        (mainBudget (w.map lowerChar) md)))
  · intro he hd
    rw [suggest_words_fallback h1 he]
    obtain ⟨u, rest, rfl⟩ : ∃ u rest, dict = u :: rest := by
      cases dict with
      | nil => exact absurd rfl hd
      | cons u rest => exact ⟨u, rest, rfl⟩
    have hfb : fallbackList (mkEngine (u :: rest) corr) (w.map lowerChar) ≠ [] := by
      unfold fallbackList
      intro hcon
      have hm := @mkBrailleWords_mem (u :: rest) u (List.mem_cons_self u rest)
      rw [show (mkEngine (u :: rest) corr).braille_words = mkBrailleWords (u :: rest)
        from rfl] at hcon
      rw [List.map_eq_nil_iff.mp hcon] at hm
      cases hm
    cases hsort : sortBy leDist (fallbackList (mkEngine (u :: rest) corr) (w.map lowerChar)) with
    | nil => exact absurd ((sortBy_eq_nil_iff leDist _).mp hsort) hfb
    | cons s t => exact ⟨s, rfl⟩

/-- C8 witness: the amended claim at the counterexample instance. -/
theorem claim_C8_witness :
    (mainScan (mkEngine [['a']] []) (['b'].map lowerChar)
        (mainBudget (['b'].map lowerChar) (some 0)) ≠ [] →
      (0 : Int) = 0 → (suggest_words (mkEngine [['a']] []) ['b'] 0 (some 0)).1 = []) ∧
    (mainScan (mkEngine [['a']] []) (['b'].map lowerChar)
        (mainBudget (['b'].map lowerChar) (some 0)) = [] →
      [['a']] ≠ ([] : List Word) →
      ∃ s, (suggest_words (mkEngine [['a']] []) ['b'] 0 (some 0)).1 = [s]) :=
  claim_C8 [['a']] [] ['b'] 0 (some 0) (by decide)

/-- C5: for a non-empty dictionary, `suggest_words` with `k ≥ 1` returns at
least one suggestion for every input (including the empty string); and when
no candidate qualifies within the budget (and the learned store does not
short-circuit), the fallback returns exactly one suggestion — a dictionary
word at the smallest unbounded distance — with confidence 0.0. The `k ≥ 1`
guard reflects the separately documented `k ≤ 0` edge case. -/
theorem claim_C5 (dict : List Word) (corr : List (Word × Word)) (w : Word) (k : Int)
    (md : Option Nat) (hd : dict ≠ []) (hnil : [] ∉ dict) :
    ((1 : Int) ≤ k → (suggest_words (mkEngine dict corr) w k md).1 ≠ []) ∧
    (learnedHit (mkEngine dict corr) (w.map lowerChar) = none →
      mainScan (mkEngine dict corr) (w.map lowerChar) (mainBudget (w.map lowerChar) md) = [] →
      ∃ v d, (suggest_words (mkEngine dict corr) w k md).1 = [(v, d, (0 : ℚ))] ∧
        v ∈ dict ∧
        d = levRef (word_to_braille (w.map lowerChar)) (word_to_braille v) ∧
        ∀ u ∈ dict, d ≤ levRef (word_to_braille (w.map lowerChar)) (word_to_braille u)) := by
  have hfb : fallbackList (mkEngine dict corr) (w.map lowerChar) ≠ [] := by
    unfold fallbackList
    intro hcon
    obtain ⟨u, rest, rfl⟩ : ∃ u rest, dict = u :: rest := by
      cases dict with
      | nil => exact absurd rfl hd
      | cons u rest => exact ⟨u, rest, rfl⟩
    have hm := @mkBrailleWords_mem (u :: rest) u (List.mem_cons_self u rest)
    rw [show (mkEngine (u :: rest) corr).braille_words = mkBrailleWords (u :: rest)
      from rfl] at hcon
    rw [List.map_eq_nil_iff.mp hcon] at hm
    cases hm
  constructor
  · intro hk
    cases hl : learnedHit (mkEngine dict corr) (w.map lowerChar) with
    | some s =>
        rw [suggest_words_hit hl]
        simp
    | none =>
        by_cases hs : mainScan (mkEngine dict corr) (w.map lowerChar)
            (mainBudget (w.map lowerChar) md) = []
        · rw [suggest_words_fallback hl hs]
          cases hsort : sortBy leDist (fallbackList (mkEngine dict corr) (w.map lowerChar)) with
          | nil => exact absurd ((sortBy_eq_nil_iff leDist _).mp hsort) hfb
          | cons s t => simp
        · rw [suggest_words_main hl hs]
          intro hcon
          have hh := pySlice_head? hk
            (sortBy leSug (mainScan (mkEngine dict corr) (w.map lowerChar)
              (mainBudget (w.map lowerChar) md)))
          have hcon2 : pySlice k (sortBy leSug (mainScan (mkEngine dict corr)
              (w.map lowerChar) (mainBudget (w.map lowerChar) md))) = [] := hcon
          rw [hcon2] at hh
          cases hsort : sortBy leSug (mainScan (mkEngine dict corr) (w.map lowerChar)
              (mainBudget (w.map lowerChar) md)) with
          | nil => exact absurd ((sortBy_eq_nil_iff leSug _).mp hsort) hs
          | cons s t => rw [hsort] at hh; cases hh
  · intro hl hs
    rw [suggest_words_fallback hl hs]
    cases hsort : sortBy leDist (fallbackList (mkEngine dict corr) (w.map lowerChar)) with
    | nil => exact absurd ((sortBy_eq_nil_iff leDist _).mp hsort) hfb
    | cons s t =>
        have hsmem : s ∈ fallbackList (mkEngine dict corr) (w.map lowerChar) := by
          have : s ∈ sortBy leDist (fallbackList (mkEngine dict corr) (w.map lowerChar)) := by
            rw [hsort]; exact List.mem_cons_self s t
          exact (mem_sortBy leDist s _).mp this
        unfold fallbackList at hsmem
        rcases List.mem_map.mp hsmem with ⟨p, hp, hps⟩
        have hpw := @mkBrailleWords_pairs dict _ hp
        refine ⟨p.1, levRef (word_to_braille (w.map lowerChar)) (word_to_braille p.1),
          ?_, hpw.1, rfl, ?_⟩
        · show [s] = _
          rw [← hps, hpw.2, levenshtein_optimized_none]
        · intro u hu
          have humem : (u, levRef (word_to_braille (w.map lowerChar)) (word_to_braille u),
              (0 : ℚ)) ∈ sortBy leDist (fallbackList (mkEngine dict corr) (w.map lowerChar)) := by
            apply (mem_sortBy leDist _ _).mpr
            unfold fallbackList
            apply List.mem_map.mpr
            refine ⟨(u, word_to_braille u), mkBrailleWords_mem hu, ?_⟩
            rw [levenshtein_optimized_none]
          rw [hsort] at humem
          have hpair2 := pairwise_sortBy leDist leDist_total leDist_trans
            (fallbackList (mkEngine dict corr) (w.map lowerChar))
          rw [hsort] at hpair2
          have hsd : s.2.1 = levRef (word_to_braille (w.map lowerChar))
              (word_to_braille p.1) := by
            rw [← hps]
            show levenshtein_optimized _ p.2 none = _
            rw [hpw.2, levenshtein_optimized_none]
          rcases List.mem_cons.mp humem with heq | hmem
          · have h2 : levRef (word_to_braille (w.map lowerChar)) (word_to_braille u)
                = s.2.1 := by rw [← heq]
            omega
          · have hle := (List.pairwise_cons.mp hpair2).1 _ hmem
            unfold leDist at hle
            simp only at hle
            omega

/-- C5 witness at a concrete engine and input. -/
theorem claim_C5_witness :
    ((1 : Int) ≤ 1 → (suggest_words (mkEngine [['a']] []) ['b'] 1 none).1 ≠ []) ∧
    (learnedHit (mkEngine [['a']] []) (['b'].map lowerChar) = none →
      mainScan (mkEngine [['a']] []) (['b'].map lowerChar)
        (mainBudget (['b'].map lowerChar) none) = [] →
      ∃ v d, (suggest_words (mkEngine [['a']] []) ['b'] 1 none).1 = [(v, d, (0 : ℚ))] ∧
        v ∈ [['a']] ∧
        d = levRef (word_to_braille (['b'].map lowerChar)) (word_to_braille v) ∧
        ∀ u ∈ [['a']],
          d ≤ levRef (word_to_braille (['b'].map lowerChar)) (word_to_braille u)) :=
  claim_C5 [['a']] [] ['b'] 1 none (by decide) (by decide)

unseal Rat.mul Rat.inv Rat.add Rat.sub in
/-- C1 counterexample: `"a"` is in the dictionary and has no learned
correction for it, yet because `"a"` appears among the learned-correction
VALUES (for the unrelated key `"x"`), its exact match gets the flat `+0.1`
bonus and is returned with confidence 1.1, not 1.0. -/
theorem claim_C1_cex :
    (['a'] : Word) ∈ [['a']] ∧
    lookupKey ([(['x'], ['a'])] : List (Word × Word)) ['a'] = none ∧
    ((suggest_words (mkEngine [['a']] [(['x'], ['a'])]) ['a'] 5 none).1).head?
      = some (['a'], 0, 11/10) ∧
    (11 / 10 : ℚ) ≠ 1 := by
  refine ⟨by decide, by decide, by decide, by decide⟩

theorem mem_keepEntry_parts {corrections : List (Word × Word)} {bw : List (Word × Code)}
    {inputCode : Code} {budget : Nat} {w : Word} {s : Suggestion}
    (hs : s ∈ keepEntry corrections bw inputCode budget w) :
    s.1 = w ∧
    s.2.1 = levenshtein_optimized inputCode ((lookupKey bw w).getD []) (some budget) ∧
    s.2.1 ≤ budget ∧
    s.2.2 = round3 (1 - (s.2.1 : ℚ)
        / ((inputCode.length : ℚ) + (((lookupKey bw w).getD []).length : ℚ))
      + (if isLearnedValue corrections w then (1 : ℚ)/10 else 0)) := by
  obtain ⟨hle, hseq⟩ := mem_keepEntry hs
  rw [hseq]
  refine ⟨rfl, rfl, hle, ?_⟩
  show round3 _ = round3 _
  congr 1
  by_cases hl : isLearnedValue corrections w = true
  · rw [if_pos hl, if_pos hl]
  · rw [if_neg hl, if_neg hl, add_zero]

/-- C1 (amended): for a lowercase word `w` in the dictionary that is not a
learned-correction key, is *not among the learned-correction values* (else
the `+0.1` bonus raises its confidence to 1.1), and whose code no other
dictionary word shares, `suggest_words(w, k)` with `k ≥ 1` ranks `w` first
with distance 0 and confidence 1.0. -/
theorem claim_C1 (dict : List Word) (corr : List (Word × Word)) (w : Word) (k : Int)
    (hw : w ∈ dict) (hlow : w.map lowerChar = w) (hwne : w ≠ [])
    (hnokey : lookupKey corr w = none)
    (hnoval : isLearnedValue corr w = false)
    (hinj : ∀ v ∈ dict, word_to_braille v = word_to_braille w → v = w)
    (hk : 1 ≤ k) :
    ((suggest_words (mkEngine dict corr) w k none).1).head? = some (w, (0 : Nat), (1 : ℚ)) := by
  have hcorr : (mkEngine dict corr).user_corrections = corr := rfl
  have hbwf : (mkEngine dict corr).braille_words = mkBrailleWords dict := rfl
  have hwbl : (mkEngine dict corr).words_by_length = mkBuckets dict := rfl
  have h1 : learnedHit (mkEngine dict corr) (w.map lowerChar) = none := by
    unfold learnedHit
    rw [hlow, hcorr, hnokey]
  have hic : word_to_braille (w.map lowerChar) = word_to_braille w := by rw [hlow]
  have hnoval2 : ¬ (isLearnedValue (mkEngine dict corr).user_corrections w = true) := by
    rw [hcorr, hnoval]
    exact Bool.false_ne_true
  have hconf1 : ∀ q : ℚ, (1 : ℚ) - ((0 : Nat) : ℚ) / q + 0 = 1 := by
    intro q
    rw [Nat.cast_zero, zero_div, sub_zero, add_zero]
  -- any suggestion kept from the scan of a dictionary index, whose reported
  -- distance is 0, is exactly (w, 0, 1)
  have hzero : ∀ s ∈ mainScan (mkEngine dict corr) (w.map lowerChar)
      (mainBudget (w.map lowerChar) none), s.2.1 = 0 → s = (w, 0, 1) := by
    intro s hs hs0
    rcases mem_scanBuckets.mp hs with ⟨len, hlen, bkt, hbkt, v, hvb, hkv⟩
    have hbkt2 : bucketsLookup (mkBuckets dict) len = some bkt := by
      rw [← hwbl]; exact hbkt
    have hvdict := (mkBuckets_pairs hbkt2 v hvb).1
    obtain ⟨hs1, hs21, hsle, hs22⟩ := mem_keepEntry_parts hkv
    have hbv : lookupKey (mkEngine dict corr).braille_words v = some (word_to_braille v) := by
      rw [hbwf]; exact mkBrailleWords_lookup hvdict
    have h3 := levenshtein_optimized_le_budget (le_of_eq_of_le (hs21.symm.trans hs0)
      (Nat.zero_le _))
    have hlev : levRef (word_to_braille (w.map lowerChar))
        ((lookupKey (mkEngine dict corr).braille_words v).getD []) = 0 :=
      h3.symm.trans (hs21.symm.trans hs0)
    have hcodes := levRef_eq_zero hlev
    rw [hbv] at hcodes
    simp only [Option.getD_some] at hcodes
    have hvw2 : v = w := hinj v hvdict (hcodes.symm.trans hic)
    rw [hvw2] at hs1 hs22
    rw [hcorr] at hs22
    rw [hnoval] at hs22
    rw [hs0] at hs22
    simp only [Bool.false_eq_true, if_false] at hs22
    rw [hconf1, round3_one] at hs22
    have hsfull : s = (s.1, s.2.1, s.2.2) := rfl
    rw [hsfull, hs1, hs0, hs22]
  -- the exact-match entry for w is kept with distance 0 and confidence 1
  have hbw : lookupKey (mkEngine dict corr).braille_words w = some (word_to_braille w) := by
    rw [hbwf]; exact mkBrailleWords_lookup hw
  have hdist0 : levenshtein_optimized (word_to_braille (w.map lowerChar))
      ((lookupKey (mkEngine dict corr).braille_words w).getD [])
      (some (mainBudget (w.map lowerChar) none)) = 0 := by
    rw [hic, hbw]
    exact levenshtein_optimized_self (word_to_braille w) _
  obtain ⟨c, hc⟩ := @mem_keepEntry_of_le (mkEngine dict corr).user_corrections
    (mkEngine dict corr).braille_words (word_to_braille (w.map lowerChar))
    (mainBudget (w.map lowerChar) none) w (le_of_eq_of_le hdist0 (Nat.zero_le _))
  have hscmem : ((w, levenshtein_optimized (word_to_braille (w.map lowerChar))
      ((lookupKey (mkEngine dict corr).braille_words w).getD [])
      (some (mainBudget (w.map lowerChar) none)), c) : Suggestion)
      ∈ mainScan (mkEngine dict corr) (w.map lowerChar)
        (mainBudget (w.map lowerChar) none) := by
    unfold mainScan
    apply mem_scanBuckets.mpr
    obtain ⟨bkt, hbkt, hwb⟩ := mkBuckets_mem hw
    refine ⟨(word_to_braille (w.map lowerChar)).length, searchLengths_self _ _, bkt, ?_,
      w, hwb, hc⟩
    rw [hwbl, hic]
    exact hbkt
  have hwmem : ((w, 0, 1) : Suggestion) ∈ mainScan (mkEngine dict corr) (w.map lowerChar)
      (mainBudget (w.map lowerChar) none) := by
    have := hzero _ hscmem (by rw [hdist0])
    rw [← this]
    exact hscmem
  -- head of the sorted scan is (w, 0, 1)
  have hne : mainScan (mkEngine dict corr) (w.map lowerChar)
      (mainBudget (w.map lowerChar) none) ≠ [] := by
    intro hcon
    rw [hcon] at hwmem
    cases hwmem
  rw [suggest_words_main h1 hne]
  show (pySlice k (sortBy leSug (mainScan (mkEngine dict corr) (w.map lowerChar)
    (mainBudget (w.map lowerChar) none)))).head? = _
  rw [pySlice_head? hk]
  have hsmem : ((w, 0, 1) : Suggestion) ∈ sortBy leSug (mainScan (mkEngine dict corr)
      (w.map lowerChar) (mainBudget (w.map lowerChar) none)) :=
    (mem_sortBy leSug _ _).mpr hwmem
  have hpw := pairwise_sortBy leSug leSug_total leSug_trans
    (mainScan (mkEngine dict corr) (w.map lowerChar) (mainBudget (w.map lowerChar) none))
  cases hsort : sortBy leSug (mainScan (mkEngine dict corr) (w.map lowerChar)
      (mainBudget (w.map lowerChar) none)) with
  | nil => rw [hsort] at hsmem; cases hsmem
  | cons h t =>
      rw [hsort] at hsmem hpw
      have hh : h ∈ mainScan (mkEngine dict corr) (w.map lowerChar)
          (mainBudget (w.map lowerChar) none) := by
        apply (mem_sortBy leSug h _).mp
        rw [hsort]
        exact List.mem_cons_self h t
      rcases List.mem_cons.mp hsmem with heq | hmem
      · rw [List.head?_cons, ← heq]
      · have hle := (List.pairwise_cons.mp hpw).1 _ hmem
        unfold leSug at hle
        rcases hle with hle | ⟨hle, _⟩
        · exact absurd hle (show ¬ h.2.1 < ((w, 0, 1) : Suggestion).2.1 from by
            show ¬ h.2.1 < 0
            omega)
        · rw [List.head?_cons, hzero h hh hle]

/-- C1 witness: `"cat"` alone in the dictionary, no learned corrections. -/
theorem claim_C1_witness :
    (['c', 'a', 't'] : Word) ∈ [['c', 'a', 't']] ∧
    ((suggest_words (mkEngine [['c', 'a', 't']] []) ['c', 'a', 't'] 1 none).1).head?
      = some (['c', 'a', 't'], (0 : Nat), (1 : ℚ)) :=
  ⟨by decide,
    claim_C1 [['c', 'a', 't']] [] ['c', 'a', 't'] 1 (by decide) (by decide) (by decide)
      (by decide) (by decide) (by decide) (by decide)⟩

theorem learnedHit_shape {eng : Engine} {i : Word} {t : Suggestion}
    (h : learnedHit eng i = some t) : ∃ l, t = (l, (0 : Nat), (1 : ℚ)) := by
  unfold learnedHit at h
  cases hl : lookupKey eng.user_corrections i with
  | none => rw [hl] at h; cases h
  | some l =>
      rw [hl] at h
      have h2 : (if l ∈ eng.dictionary then some ((l, 0, 1) : Suggestion) else none)
          = some t := h
      by_cases hd : l ∈ eng.dictionary
      · rw [if_pos hd] at h2
        exact ⟨l, (Option.some_inj.mp h2).symm⟩
      · rw [if_neg hd] at h2
        cases h2

unseal Rat.mul Rat.inv Rat.add Rat.sub in
/-- C6 counterexample: a suggestion can be returned with confidence 1.1,
outside `[0, 1]` — an exact match that happens to be a learned-correction
value gets `1.0 + 0.1`. -/
theorem claim_C6_cex :
    ((suggest_words (mkEngine [['a']] [(['x'], ['a'])]) ['a'] 3 none).1)
      = [(['a'], 0, 11/10)] ∧ ¬ ((11/10 : ℚ) ≤ 1) := by
  constructor
  · decide
  · norm_num

/-- C6 (amended): every suggestion returned by `suggest_words` carries a
confidence in the closed interval `[0, 1.1]` (the upper end 1.1, not 1.0,
is reachable via the learned-value bonus). -/
theorem claim_C6 (eng : Engine) (w : Word) (k : Int) (md : Option Nat) :
    ∀ s ∈ (suggest_words eng w k md).1, (0 : ℚ) ≤ s.2.2 ∧ s.2.2 ≤ 11/10 := by
  intro s hs
  cases hl : learnedHit eng (w.map lowerChar) with
  | some t =>
      rw [suggest_words_hit hl] at hs
      obtain ⟨l, rfl⟩ := learnedHit_shape hl
      rcases List.mem_singleton.mp hs with rfl
      norm_num
  | none =>
      by_cases hsc : mainScan eng (w.map lowerChar) (mainBudget (w.map lowerChar) md) = []
      · rw [suggest_words_fallback hl hsc] at hs
        have hs2 : s ∈ fallbackList eng (w.map lowerChar) := by
          apply (mem_sortBy leDist s _).mp
          exact List.mem_of_mem_take hs
        unfold fallbackList at hs2
        rcases List.mem_map.mp hs2 with ⟨p, _, hps⟩
        rw [← hps]
        norm_num
      · rw [suggest_words_main hl hsc] at hs
        have hs2 : s ∈ mainScan eng (w.map lowerChar) (mainBudget (w.map lowerChar) md) :=
          (mem_sortBy leSug s _).mp (mem_pySlice hs)
        rcases mem_scanBuckets.mp hs2 with ⟨len, _, bkt, _, v, _, hkv⟩
        obtain ⟨hs1, hs21, hsle, hs22⟩ := mem_keepEntry_parts hkv
        -- the kept distance is the exact distance, bounded by the sum of lengths
        have hdex := levenshtein_optimized_le_budget (hs21 ▸ hsle)
        have hdsum : s.2.1 ≤ (word_to_braille (w.map lowerChar)).length
            + ((lookupKey eng.braille_words v).getD []).length := by
          rw [hs21, hdex]
          exact levRef_le_sum _ _
        set la : ℚ := ((word_to_braille (w.map lowerChar)).length : ℚ)
        set lb : ℚ := (((lookupKey eng.braille_words v).getD []).length : ℚ)
        have hla : 0 ≤ la := by positivity
        have hlb : 0 ≤ lb := by positivity
        have hdq : (s.2.1 : ℚ) ≤ la + lb := by
          rw [show la + lb = (((word_to_braille (w.map lowerChar)).length
              + ((lookupKey eng.braille_words v).getD []).length : Nat) : ℚ) from by
            push_cast; ring]
          exact_mod_cast hdsum
        have hbase : (0 : ℚ) ≤ 1 - (s.2.1 : ℚ) / (la + lb) ∧
            1 - (s.2.1 : ℚ) / (la + lb) ≤ 1 := by
          by_cases h0 : la + lb = 0
          · have : (s.2.1 : ℚ) = 0 := le_antisymm (by rw [← h0]; exact hdq) (by positivity)
            rw [this, h0, zero_div, sub_zero]
            norm_num
          · have hpos : 0 < la + lb := lt_of_le_of_ne (by positivity) (Ne.symm h0)
            constructor
            · have : (s.2.1 : ℚ) / (la + lb) ≤ 1 := by
                rw [div_le_one hpos]
                exact hdq
              linarith
            · have : (0 : ℚ) ≤ (s.2.1 : ℚ) / (la + lb) := by positivity
              linarith
        have hbonus : (0 : ℚ) ≤ (if isLearnedValue eng.user_corrections v then (1:ℚ)/10 else 0)
            ∧ (if isLearnedValue eng.user_corrections v then (1:ℚ)/10 else 0) ≤ 1/10 := by
          split <;> norm_num
        constructor
        · rw [hs22]
          apply round3_nonneg
          linarith [hbase.1, hbonus.1]
        · rw [hs22]
          apply round3_le_of_le
          · linarith [hbase.2, hbonus.2]
          · exact ⟨1100, by norm_num⟩

unseal Rat.mul Rat.inv Rat.add Rat.sub in
/-- C6 witness at a concrete engine, input and returned suggestion. -/
theorem claim_C6_witness :
    ((['a'], (1 : Nat), (917/1000 : ℚ)) : Suggestion)
        ∈ (suggest_words (mkEngine [['a']] []) ['b'] 5 none).1 ∧
    (0 : ℚ) ≤ (917/1000 : ℚ) ∧ (917/1000 : ℚ) ≤ 11/10 := by
  have hm : ((['a'], (1 : Nat), (917/1000 : ℚ)) : Suggestion)
      ∈ (suggest_words (mkEngine [['a']] []) ['b'] 5 none).1 := by decide
  exact ⟨hm, claim_C6 (mkEngine [['a']] []) ['b'] 5 none _ hm⟩

unseal Rat.mul Rat.inv Rat.add Rat.sub in
/-- C7 counterexample: the reported confidence is the 3-decimal rounding of
`1 − distance/(len(inputCode)+len(candidateCode))`, not that exact value:
for input `"b"` against dictionary `["a"]` the exact value is `11/12` but
`0.917` is reported. -/
theorem claim_C7_cex :
    (suggest_words (mkEngine [['a']] []) ['b'] 5 none).1 = [(['a'], 1, 917/1000)] ∧
      (917/1000 : ℚ) ≠ 1 - (1 : ℚ) / (6 + 6) := by
  constructor
  · decide
  · norm_num

/-- C7 (amended): every candidate kept during bucket search is reported with
confidence `round(1 − distance/(len(inputCode)+len(candidateCode)) + bonus, 3)`
where the flat `+0.1` bonus applies exactly when the candidate appears among
the learned-correction values (for any typed key). -/
theorem claim_C7 (dict : List Word) (corr : List (Word × Word)) (w : Word) (k : Int)
    (md : Option Nat)
    (h1 : learnedHit (mkEngine dict corr) (w.map lowerChar) = none)
    (hne : mainScan (mkEngine dict corr) (w.map lowerChar)
      (mainBudget (w.map lowerChar) md) ≠ []) :
    ∀ s ∈ (suggest_words (mkEngine dict corr) w k md).1,
      s.2.2 = round3 (1 - (s.2.1 : ℚ)
          / (((word_to_braille (w.map lowerChar)).length : ℚ)
            + ((word_to_braille s.1).length : ℚ))
        + (if isLearnedValue corr s.1 then (1 : ℚ)/10 else 0)) := by
  intro s hs
  rw [suggest_words_main h1 hne] at hs
  have hs2 : s ∈ mainScan (mkEngine dict corr) (w.map lowerChar)
      (mainBudget (w.map lowerChar) md) :=
    (mem_sortBy leSug s _).mp (mem_pySlice hs)
  rcases mem_scanBuckets.mp hs2 with ⟨len, _, bkt, hbkt, v, hvb, hkv⟩
  have hbkt2 : bucketsLookup (mkBuckets dict) len = some bkt := hbkt
  have hvdict := (mkBuckets_pairs hbkt2 v hvb).1
  obtain ⟨hs1, _, _, hs22⟩ := mem_keepEntry_parts hkv
  have hbv : lookupKey (mkEngine dict corr).braille_words v = some (word_to_braille v) :=
    mkBrailleWords_lookup hvdict
  rw [hbv] at hs22
  simp only [Option.getD_some] at hs22
  rw [hs22, ← hs1]
  rfl

unseal Rat.mul Rat.inv Rat.add Rat.sub in
/-- C7 witness at a concrete engine and kept candidate. -/
theorem claim_C7_witness :
    learnedHit (mkEngine [['a']] []) (['b'].map lowerChar) = none ∧
    mainScan (mkEngine [['a']] []) (['b'].map lowerChar)
      (mainBudget (['b'].map lowerChar) none) ≠ [] ∧
    ∀ s ∈ (suggest_words (mkEngine [['a']] []) ['b'] 5 none).1,
      s.2.2 = round3 (1 - (s.2.1 : ℚ)
          / (((word_to_braille (['b'].map lowerChar)).length : ℚ)
            + ((word_to_braille s.1).length : ℚ))
        + (if isLearnedValue [] s.1 then (1 : ℚ)/10 else 0)) :=
  ⟨by decide, by decide, claim_C7 [['a']] [] ['b'] 5 none (by decide) (by decide)⟩

/-- C9: a returned list with at least two suggestions is sorted
non-decreasingly by distance, non-increasingly by confidence among equal
distances, and (for `k ≥ 0`) never exceeds `k` entries. -/
theorem claim_C9 (eng : Engine) (w : Word) (k : Int) (md : Option Nat) (hk : 0 ≤ k)
    (h2 : 2 ≤ ((suggest_words eng w k md).1).length) :
    ((suggest_words eng w k md).1).Pairwise
        (fun a b => a.2.1 ≤ b.2.1 ∧ (a.2.1 = b.2.1 → b.2.2 ≤ a.2.2)) ∧
      (((suggest_words eng w k md).1).length : Int) ≤ k := by
  cases hl : learnedHit eng (w.map lowerChar) with
  | some t =>
      rw [suggest_words_hit hl] at h2
      simp at h2
  | none =>
      by_cases hsc : mainScan eng (w.map lowerChar) (mainBudget (w.map lowerChar) md) = []
      · rw [suggest_words_fallback hl hsc] at h2
        have h2b : 2 ≤ (List.take 1 (sortBy leDist
            (fallbackList eng (w.map lowerChar)))).length := h2
        have := List.length_take_le 1
          (sortBy leDist (fallbackList eng (w.map lowerChar)))
        omega
      · rw [suggest_words_main hl hsc] at h2 ⊢
        have hpw := pairwise_sortBy leSug leSug_total leSug_trans
          (mainScan eng (w.map lowerChar) (mainBudget (w.map lowerChar) md))
        constructor
        · have hps : (pySlice k (sortBy leSug (mainScan eng (w.map lowerChar)
              (mainBudget (w.map lowerChar) md)))).Pairwise leSug := by
            unfold pySlice
            split
            · exact hpw.sublist (List.take_sublist _ _)
            · exact hpw.sublist (List.take_sublist _ _)
          apply hps.imp
          intro a b hab
          unfold leSug at hab
          rcases hab with hab | ⟨hab, habc⟩
          · exact ⟨le_of_lt hab, fun he => absurd he (by omega)⟩
          · exact ⟨le_of_eq hab, fun _ => habc⟩
        · show ((pySlice k _).length : Int) ≤ k
          unfold pySlice
          rw [if_pos hk]
          have := List.length_take_le k.toNat
            (sortBy leSug (mainScan eng (w.map lowerChar) (mainBudget (w.map lowerChar) md)))
          omega

unseal Rat.mul Rat.inv Rat.add Rat.sub in
/-- C9 witness: a two-result call. -/
theorem claim_C9_witness :
    (0 : Int) ≤ 5 ∧
    2 ≤ ((suggest_words (mkEngine [['a'], ['b']] []) ['a'] 5 none).1).length ∧
    (((suggest_words (mkEngine [['a'], ['b']] []) ['a'] 5 none).1).Pairwise
        (fun a b => a.2.1 ≤ b.2.1 ∧ (a.2.1 = b.2.1 → b.2.2 ≤ a.2.2)) ∧
      (((suggest_words (mkEngine [['a'], ['b']] []) ['a'] 5 none).1).length : Int) ≤ 5) :=
  ⟨by norm_num, by decide,
    claim_C9 (mkEngine [['a'], ['b']] []) ['a'] 5 none (by norm_num) (by decide)⟩
